import Mathlib

/-!
Verification of the Droop STV counting engine.

The development shallowly embeds the counting code of the repository:
the Meek/Warren counter (droop/rules/meek.py) and the PRF reference WIGM
counter (droop/rules/wigm_prf.py).  The pluggable arithmetic kernel
(droop/values) and the election-state helpers (droop/election) are not
among the available sources; where a definition depends on them it is
modelled from the specification, as noted in its documentation string.

Machine fixed-point values are embedded as integers: an integer x with
scale s = 10 ^ precision stands for the fixed-point number x / s.
Exact (rational) arithmetic is embedded as Lean rationals.
-/

namespace Droop

/-- Modelled from the spec: fixed-point multiply with round=down
(section 4.A; droop/values is not among the sources).  The product of two
scaled integers is rescaled by flooring, which is what Python floor
division does. -/
def mulDown (s a b : ℤ) : ℤ := (a * b).fdiv s

/-- Modelled from the spec: fixed-point multiply with round=up
(section 4.A): add s - 1 before flooring. -/
def mulUp (s a b : ℤ) : ℤ := (a * b + (s - 1)).fdiv s

/-- Modelled from the spec: fixed-point divide with round=down
(section 4.A). -/
def divDown (s a b : ℤ) : ℤ := (a * s).fdiv b

/-- Modelled from the spec: fixed-point divide with round=up
(section 4.A). -/
def divUp (s a b : ℤ) : ℤ := (a * s + (b - 1)).fdiv b

/-- Candidate status in the Meek/Warren counter (droop/rules/meek.py has
no pending state). -/
inductive MStatus
  | hopeful
  | elected
  | defeated
  | withdrawn
deriving DecidableEq, Repr, Inhabited

/-- A Meek candidate: stable id, ballot-file order, status, current vote
and keep factor (fixed-point units). -/
structure MCand where
  cid : ℕ
  order : ℕ
  status : MStatus
  vote : ℤ
  kf : ℤ
deriving DecidableEq, Repr, Inhabited

/-- Boolean comparison: ascending by vote, ties by ballot-file order. -/
def voteOrderLe (a b : MCand) : Bool :=
  decide (a.vote < b.vote) || (decide (a.vote = b.vote) && decide (a.order ≤ b.order))

/-- Modelled from the spec: sortByVote of section 4.C sorts candidates
ascending by vote, ties by ballot order (CandidateSet.byVote of
droop/election is not among the sources). -/
def sortByVote (cs : List MCand) : List MCand := cs.mergeSort voteOrderLe

/-- Modelled from the spec: sortByOrder of section 4.C sorts candidates
by ballot-file order (droop/election is not among the sources). -/
def sortByOrder (cs : List MCand) : List MCand :=
  cs.mergeSort (fun a b => decide (a.order ≤ b.order))

/-- breakTie from droop/rules/meek.py (count.breakTie): sort the tied
candidates by ballot-file order and choose the first; none when the tied
list is empty. -/
def breakTie (tied : List MCand) : Option MCand := (sortByOrder tied).head?

/-- One step of the group-building walk of batchDefeat
(droop/rules/meek.py lines 154-167 and droop/rules/wigm_prf.py lines
236-249): a candidate joins the current group iff the vote at which the
group was opened plus the surplus reaches its vote, otherwise the group
is closed and a new group is opened at the vote of this candidate.
The accumulator holds (closed groups, current group, current group vote). -/
def groupStep (surplus : ℤ) (acc : List (List MCand) × List MCand × ℤ) (c : MCand) :
    List (List MCand) × List MCand × ℤ :=
  if acc.2.2 + surplus ≥ c.vote then (acc.1, acc.2.1 ++ [c], acc.2.2)
  else (if acc.2.1.isEmpty then acc.1 else acc.1 ++ [acc.2.1], [c], c.vote)

/-- The sorted groups built by batchDefeat from the vote-sorted hopeful
candidates: fold of groupStep starting from no groups and group vote V0,
appending the final group when non-empty. -/
def sortedGroups (surplus : ℤ) (sortedCands : List MCand) : List (List MCand) :=
  let acc := sortedCands.foldl (groupStep surplus) ([], [], 0)
  if acc.2.1.isEmpty then acc.1 else acc.1 ++ [acc.2.1]

/-- The scan of batchDefeat (droop/rules/meek.py lines 180-191): walk the
groups except the last, accumulating candidate count and vote; stop when
the count exceeds maxDefeat; record index g whenever the accumulated vote
plus surplus is below the first vote of the next group.  Arguments after
the group list: accumulated vote, accumulated candidate count, index of
the group at the head of the list, best recorded index. -/
def scanGroups (surplus maxDefeat : ℤ) :
    List (List MCand) → ℤ → ℕ → ℕ → Option ℕ → Option ℕ
  | [], _, _, _, maxg => maxg
  | [_], _, _, _, maxg => maxg
  | g :: g2 :: rest, vote, ncand, idx, maxg =>
    let ncand2 := ncand + g.length
    if (ncand2 : ℤ) > maxDefeat then maxg
    else
      let vote2 := vote + (g.map MCand.vote).sum
      let maxg2 := if vote2 + surplus < g2.headI.vote then some idx else maxg
      scanGroups surplus maxDefeat (g2 :: rest) vote2 ncand2 (idx + 1) maxg2

/-- batchDefeat core algorithm, identical in droop/rules/meek.py (lines
143-196) and droop/rules/wigm_prf.py (lines 209-278): sort the hopeful
candidates by vote, build the tied groups, scan for the largest viable
cut, and return the union of groups up to that cut (empty when there is
no viable cut).  seatsLeft is the value of seatsLeftToFill at the call. -/
def batchDefeat (surplus : ℤ) (hopeful : List MCand) (seatsLeft : ℤ) : List MCand :=
  let gs := sortedGroups surplus (sortByVote hopeful)
  let maxDefeat : ℤ := (hopeful.length : ℤ) - seatsLeft
  match scanGroups surplus maxDefeat gs 0 0 0 none with
  | none => []
  | some maxg => (gs.take (maxg + 1)).flatten

/-- The number of candidates in groups 0 to g of a group list. -/
def cumCount (gs : List (List MCand)) (g : ℕ) : ℕ :=
  ((gs.take (g + 1)).map List.length).sum

/-- The total vote of groups 0 to g of a group list. -/
def cumVote (gs : List (List MCand)) (g : ℕ) : ℤ :=
  ((gs.take (g + 1)).map (fun gr => (gr.map MCand.vote).sum)).sum

/-- The number of candidates in the first k groups of a group list
(prefix sums of group sizes; cumCount gs g is partCount gs (g + 1)). -/
def partCount (gs : List (List MCand)) (k : ℕ) : ℕ :=
  ((gs.take k).map List.length).sum

/-- The total vote of the first k groups of a group list. -/
def partVote (gs : List (List MCand)) (k : ℕ) : ℤ :=
  ((gs.take k).map (fun gr => (gr.map MCand.vote).sum)).sum

/-- Stated from the claim wording: index g is a viable cut when g is not
the last group, defeating groups 0 to g leaves enough hopefuls (their
count stays within maxDefeat), and their total vote plus the surplus is
below the first vote of group g + 1.  scanGroups is proved to return the
largest viable cut. -/
def viableCut (surplus maxDefeat : ℤ) (gs : List (List MCand)) (g : ℕ) : Prop :=
  g + 1 < gs.length ∧ (cumCount gs g : ℤ) ≤ maxDefeat ∧
    cumVote gs g + surplus < (gs.getD (g + 1) []).headI.vote

/-- hasQuota of droop/rules/meek.py (lines 100-109), exact branch:
with exact arithmetic a candidate has quota iff its vote exceeds the
quota strictly. -/
def hasQuotaExact (vote quota : ℚ) : Prop := vote > quota

/-- hasQuota of droop/rules/meek.py (lines 100-109), non-exact branch:
with rounded arithmetic a candidate has quota iff its vote is at least
the quota. -/
def hasQuotaRounded (vote quota : ℤ) : Prop := vote ≥ quota

/-- calcQuota of droop/rules/meek.py (lines 111-119), exact branch:
votes divided by seats plus one, exactly. -/
def calcQuotaExact (votes : ℚ) (nSeats : ℕ) : ℚ := votes / ((nSeats : ℚ) + 1)

/-- calcQuota of droop/rules/meek.py (lines 111-119), non-exact branch:
the fixed-point division of the votes by V(nSeats + 1), truncating, plus
epsilon (one fixed-point unit).  V(n) embeds the integer n as n * s. -/
def calcQuotaFixed (s votes : ℤ) (nSeats : ℕ) : ℤ :=
  divDown s votes (((nSeats : ℤ) + 1) * s) + 1

instance (v q : ℤ) : Decidable (hasQuotaRounded v q) :=
  inferInstanceAs (Decidable (v ≥ q))

/-- The hopeful candidates of a candidate list. -/
def hopefulOf (cands : List MCand) : List MCand :=
  cands.filter (fun c => decide (c.status = .hopeful))

/-- The elected candidates of a candidate list. -/
def electedOf (cands : List MCand) : List MCand :=
  cands.filter (fun c => decide (c.status = .elected))

/-- The live (hopeful or elected) candidates of a candidate list. -/
def hopefulOrElectedOf (cands : List MCand) : List MCand :=
  cands.filter (fun c => decide (c.status = .hopeful ∨ c.status = .elected))

/-- The defeated candidates of a candidate list. -/
def defeatedOf (cands : List MCand) : List MCand :=
  cands.filter (fun c => decide (c.status = .defeated))

/-- The non-withdrawn candidates of a candidate list. -/
def liveOf (cands : List MCand) : List MCand :=
  cands.filter (fun c => decide (c.status ≠ .withdrawn))

/-- Step D.4 of iterate (droop/rules/meek.py lines 279-281): elect every
hopeful candidate that has a quota. -/
def electHopefuls (quota : ℤ) (cands : List MCand) : List MCand :=
  cands.map (fun c =>
    if c.status = .hopeful ∧ hasQuotaRounded c.vote quota
    then { c with status := .elected } else c)

/-- The keep-factor update of droop/rules/meek.py line 316: the keep
factor becomes div(mul(kf, quota, round=up), vote, round=up). -/
def updateKF (s kf quota vote : ℤ) : ℤ := divUp s (mulUp s kf quota) vote

/-- The keep-factor update of droop/rules/meek.py line 316 with exact
rational arithmetic, where the rounding modes are no-ops: the keep
factor becomes kf times quota over vote. -/
def updateKFExact (kf quota vote : ℚ) : ℚ := kf * quota / vote

/-- Step D.8 of iterate (droop/rules/meek.py lines 314-316): the keep
factor of every elected candidate is updated; no other candidate is
touched. -/
def updateKeepFactors (s quota : ℤ) (cands : List MCand) : List MCand :=
  cands.map (fun c =>
    if c.status = .elected
    then { c with kf := updateKF s c.kf quota c.vote } else c)

/-- Why one pass of the Meek/Warren inner iteration ended, together with
the candidate state it produced (droop/rules/meek.py iterateStatus
constants, lines 198-204).  The again constructor is the case in which
the iteration continues with updated keep factors; it carries the
surplus that becomes lastsurplus. -/
inductive PassResult
  | elected (cands : List MCand) (surplus : ℤ)
  | omegaHit (cands : List MCand) (surplus : ℤ)
  | stable (cands : List MCand) (surplus : ℤ)
  | batchOut (cands : List MCand) (batch : List MCand) (surplus : ℤ)
  | again (cands : List MCand) (surplus : ℤ)
deriving DecidableEq, Repr

/-- The quota a pass computes (droop/rules/meek.py lines 271-275): the
live votes are totalled and the quota recomputed from them. -/
def passQuota (s : ℤ) (nSeats : ℕ) (cands : List MCand) : ℤ :=
  calcQuotaFixed s (((hopefulOrElectedOf cands).map MCand.vote).sum) nSeats

/-- The total surplus a pass computes (droop/rules/meek.py line 285):
the sum of vote minus quota over the elected candidates. -/
def passSurplus (quota : ℤ) (cands : List MCand) : ℤ :=
  ((electedOf cands).map (fun c => c.vote - quota)).sum

/-- Whether some hopeful candidate has a quota this pass, which is
exactly when the election loop of line 279 sets iStatus to IS_elected. -/
def passAnyElected (quota : ℤ) (cands : List MCand) : Bool :=
  (hopefulOf cands).any (fun c => decide (hasQuotaRounded c.vote quota))

/-- The batch a pass would defeat: empty when batch defeat is disabled
(droop/rules/meek.py lines 146-147), otherwise batchDefeat on the
then-hopeful candidates. -/
def passBatch (surplus seatsLeft : ℤ) (defeatBatch : Bool) (cands : List MCand) :
    List MCand :=
  if defeatBatch then batchDefeat surplus (hopefulOf cands) seatsLeft else []

/-- The candidate state after the election loop of a pass. -/
def passNewCands (s : ℤ) (nSeats : ℕ) (cands : List MCand) : List MCand :=
  electHopefuls (passQuota s nSeats cands) cands

/-- The total surplus of a pass, computed on the post-election state. -/
def passTotalSurplus (s : ℤ) (nSeats : ℕ) (cands : List MCand) : ℤ :=
  passSurplus (passQuota s nSeats cands) (passNewCands s nSeats cands)

/-- One pass of the Meek/Warren inner iteration after the ballots have
been distributed (droop/rules/meek.py lines 271-316): total the live
votes, recompute the quota, elect every hopeful with a quota, total the
surplus of the elected candidates, then test the termination conditions
in the order of the source: elected this pass, surplus at most omega,
surplus not strictly decreasing, non-empty defeatable batch, and
otherwise update the keep factors and continue.  The candidate votes of
the argument are the votes produced by the distribution of this pass. -/
def iteratePass (s : ℤ) (nSeats : ℕ) (omega lastsurplus seatsLeft : ℤ)
    (defeatBatch : Bool) (cands : List MCand) : PassResult :=
  let quota := passQuota s nSeats cands
  let newCands := passNewCands s nSeats cands
  let surplus := passTotalSurplus s nSeats cands
  if passAnyElected quota cands then .elected newCands surplus
  else if surplus ≤ omega then .omegaHit newCands surplus
  else if surplus ≥ lastsurplus then .stable newCands surplus
  else if passBatch surplus seatsLeft defeatBatch newCands ≠ [] then
    .batchOut newCands (passBatch surplus seatsLeft defeatBatch newCands) surplus
  else .again (updateKeepFactors s quota newCands) surplus

/-- The minimum of a list of integers with first element as start value,
embedding V.min on a non-empty vote list. -/
def listMinZ : List ℤ → ℤ
  | [] => 0
  | v :: vs => vs.foldl min v

/-- The single defeat performed by the Meek round loop when the
iteration ends with status Omega or Stable (droop/rules/meek.py lines
383-397): the hopeful candidates within the surplus of the lowest vote
form the tie set; the tie is broken by ballot-file order; the defeated
candidate has its keep factor and vote set to V0. -/
def lowDefeat (surplus : ℤ) (cands : List MCand) : List MCand :=
  let hs := hopefulOf cands
  let low_vote := listMinZ (hs.map MCand.vote)
  let low_candidates := hs.filter (fun c => decide (low_vote + surplus ≥ c.vote))
  match breakTie low_candidates with
  | none => cands
  | some t => cands.map (fun c =>
      if c.cid = t.cid then { c with status := .defeated, kf := 0, vote := 0 } else c)

/-- The candidate defeated by lowDefeat, when one exists. -/
def lowDefeatChoice (surplus : ℤ) (cands : List MCand) : Option MCand :=
  let hs := hopefulOf cands
  let low_vote := listMinZ (hs.map MCand.vote)
  breakTie (hs.filter (fun c => decide (low_vote + surplus ≥ c.vote)))

/-- Modelled from the spec: seatsLeftToFill of section 4.C is the seat
count minus the elected and pending counts (droop/election is not among
the sources). -/
def seatsLeftToFill (nSeats nElected nPending : ℕ) : ℤ :=
  (nSeats : ℤ) - (nElected : ℤ) - (nPending : ℤ)

/-- countComplete of droop/rules/meek.py (lines 96-98): the count ends
when the hopefuls no longer exceed the seats left to fill, or no seats
are left (Meek has no pending candidates). -/
def countComplete (nSeats nHopeful nElected : ℕ) : Prop :=
  (nHopeful : ℤ) ≤ seatsLeftToFill nSeats nElected 0 ∨ seatsLeftToFill nSeats nElected 0 ≤ 0

instance (nSeats nHopeful nElected : ℕ) :
    Decidable (countComplete nSeats nHopeful nElected) :=
  inferInstanceAs (Decidable (_ ∨ _))

/-- The finalization walk of droop/rules/meek.py (lines 399-407): each
remaining hopeful is elected while the elected count is below the seat
count and defeated otherwise (keep factor and vote zeroed); the first
argument after the seat count is the current elected count. -/
def meekFinishWalk (nSeats : ℕ) : ℕ → List MCand → List MCand
  | _, [] => []
  | e, c :: cs =>
    if c.status = .hopeful then
      if e < nSeats then { c with status := .elected } :: meekFinishWalk nSeats (e + 1) cs
      else { c with status := .defeated, kf := 0, vote := 0 } :: meekFinishWalk nSeats e cs
    else c :: meekFinishWalk nSeats e cs

/-- Meek finalization started from the current elected count. -/
def meekFinish (nSeats : ℕ) (cands : List MCand) : List MCand :=
  meekFinishWalk nSeats (electedOf cands).length cands

/-- The operations of the Meek counter that touch candidate state:
the keep-factor update of a pass (elected candidates only), the batch
election of a pass, electing one candidate, defeating one candidate
(batch, low or final defeat, all of which zero keep factor and vote),
and the finalization walk. -/
inductive MeekOp
  | update (quota : ℤ)
  | electAll (quota : ℤ)
  | electOne (cid : ℕ)
  | defeatOne (cid : ℕ)
  | finish (nSeats : ℕ)
deriving DecidableEq, Repr

/-- Apply one Meek counter operation to the candidate state. -/
def applyMeekOp (s : ℤ) (cands : List MCand) : MeekOp → List MCand
  | .update quota => updateKeepFactors s quota cands
  | .electAll quota => electHopefuls quota cands
  | .electOne cid => cands.map (fun c =>
      if c.cid = cid ∧ c.status = .hopeful then { c with status := .elected } else c)
  | .defeatOne cid => cands.map (fun c =>
      if c.cid = cid then { c with status := .defeated, kf := 0, vote := 0 } else c)
  | .finish nSeats => meekFinish nSeats cands

/-- Apply a sequence of Meek counter operations. -/
def applyMeekOps (s : ℤ) (cands : List MCand) (ops : List MeekOp) : List MCand :=
  ops.foldl (applyMeekOp s) cands

/-- The initialization of droop/rules/meek.py (lines 347-354): withdrawn
candidates get keep factor V0, hopeful candidates keep factor V1 and
vote V0.  A profile entry is (cid, ballot-file order, withdrawn flag). -/
def meekInit (s : ℤ) (profile : List (ℕ × ℕ × Bool)) : List MCand :=
  profile.map (fun p =>
    if p.2.2 then ⟨p.1, p.2.1, .withdrawn, 0, 0⟩ else ⟨p.1, p.2.1, .hopeful, 0, s⟩)

/-- A ballot for the Meek distribution: multiplicity and ranking. -/
structure MBallot where
  mult : ℕ
  ranking : List ℕ
deriving DecidableEq, Repr

/-- The per-ballot Meek distribution loop (droop/rules/meek.py lines
231-268), generic in the value type and in the rounded operations: for
each candidate of the ranking in order, the keep vote kvF (weight times
multiplicity, keep factor) is added to the vote of the candidate, the
weight becomes wtF (weight, keep factor), the keep vote is subtracted
from the ballot residual, and the walk stops when the weight reaches
zero.  Arguments after the ranking: current weight, current ballot
residual, votes so far. -/
def meekBallotLoop {V : Type} [AddCommGroup V] [LinearOrder V]
    (kvF wtF : V → V → V) (kf : ℕ → V) (m : ℕ) :
    List ℕ → V → V → (ℕ → V) → ((ℕ → V) × V)
  | [], _, r, votes => (votes, r)
  | c :: cs, w, r, votes =>
    let kv := kvF (m • w) (kf c)
    let votes2 := Function.update votes c (votes c + kv)
    let w2 := wtF w (kf c)
    let r2 := r - kv
    if w2 ≤ 0 then (votes2, r2)
    else meekBallotLoop kvF wtF kf m cs w2 r2 votes2

/-- The Meek distribution over the ballots of a round (droop/rules/
meek.py lines 220-269): each ballot starts with weight V1 and residual
V(multiplicity); after its ranking walk the remaining ballot residual is
added to the round residual.  The value one is V1. -/
def meekDistribute {V : Type} [AddCommGroup V] [LinearOrder V]
    (kvF wtF : V → V → V) (kf : ℕ → V) (one : V) :
    List MBallot → ((ℕ → V) × V) → ((ℕ → V) × V)
  | [], acc => acc
  | b :: bs, acc =>
    let out := meekBallotLoop kvF wtF kf b.mult b.ranking one (b.mult • one) acc.1
    meekDistribute kvF wtF kf one bs (out.1, acc.2 + out.2)

/-- One distribution pass started from zero votes and zero residual
(droop/rules/meek.py lines 217-219 reset every live vote and the round
residual to V0 before the ballot walk; defeated and withdrawn candidates
already hold vote V0). -/
def meekPassVotes {V : Type} [AddCommGroup V] [LinearOrder V]
    (kvF wtF : V → V → V) (kf : ℕ → V) (one : V) (ballots : List MBallot) :
    ((ℕ → V) × V) :=
  meekDistribute kvF wtF kf one ballots ((fun _ => 0), 0)

/-- The Meek distribution pass with fixed-point arithmetic of scale s:
the keep vote is mul(weight times multiplicity, kf, round=down) and the
new weight is mul(weight, V1 - kf, round=down) (droop/rules/meek.py
lines 240-242, the active OpenSTV variant). -/
def meekPassFixed (s : ℤ) (kf : ℕ → ℤ) (ballots : List MBallot) : ((ℕ → ℤ) × ℤ) :=
  meekPassVotes (fun a k => mulDown s a k) (fun w k => mulDown s w (s - k)) kf s ballots

/-- The Meek distribution pass with exact rational arithmetic, where the
rounding modes are no-ops. -/
def meekPassExact (kf : ℕ → ℚ) (ballots : List MBallot) : ((ℕ → ℚ) × ℚ) :=
  meekPassVotes (fun a k => a * k) (fun w k => w * (1 - k)) kf 1 ballots

/-- Candidate status in the WIGM counter (droop/rules/wigm_prf.py):
pending is elected with surplus transfer pending. -/
inductive WStatus
  | hopeful
  | pending
  | elected
  | defeated
  | withdrawn
deriving DecidableEq, Repr, Inhabited

/-- A WIGM candidate: stable id, ballot-file order, status and current
vote (fixed-point units). -/
structure WCand where
  cid : ℕ
  order : ℕ
  status : WStatus
  vote : ℤ
deriving DecidableEq, Repr, Inhabited

/-- hasQuota of droop/rules/wigm_prf.py (lines 164-166): a candidate has
a quota iff its vote is at least the quota. -/
def wigmHasQuota (vote quota : ℤ) : Prop := vote ≥ quota

instance (v q : ℤ) : Decidable (wigmHasQuota v q) :=
  inferInstanceAs (Decidable (v ≥ q))

/-- Step B.1 of droop/rules/wigm_prf.py (lines 318-319): every hopeful
candidate that has a quota becomes pending (elected with surplus
transfer pending). -/
def pendWinners (quota : ℤ) (cands : List WCand) : List WCand :=
  cands.map (fun c =>
    if c.status = .hopeful ∧ wigmHasQuota c.vote quota
    then { c with status := .pending } else c)

/-- A WIGM ballot: multiplicity, ranking, cursor (index of the current
top rank) and weight.  The ballot mechanics live in droop/election,
which is not among the sources; the cursor model follows the spec
(sections 3 and 4.E). -/
structure WBallot where
  mult : ℕ
  ranking : List ℕ
  top : ℕ
  weight : ℤ
deriving DecidableEq, Repr

/-- The candidate id at the cursor of a ballot. -/
def WBallot.topRank (b : WBallot) : ℕ := b.ranking.getD b.top 0

/-- Modelled from the spec: a ballot is exhausted when its cursor has
passed its last rank or its weight is zero (section 3; droop/election is
not among the sources). -/
def WBallot.exhausted (b : WBallot) : Prop :=
  b.ranking.length ≤ b.top ∨ b.weight = 0

instance (b : WBallot) : Decidable b.exhausted :=
  inferInstanceAs (Decidable (_ ∨ _))

/-- Modelled from the spec: the vote carried by a ballot is its weight
times its multiplicity (droop/election is not among the sources; the
multiplicity is an exact integer factor). -/
def WBallot.vote (b : WBallot) : ℤ := b.weight * (b.mult : ℤ)

/-- The status of the candidate with a given id, withdrawn when the id
is unknown. -/
def statusOf (cands : List WCand) (cid : ℕ) : WStatus :=
  ((cands.find? (fun c => decide (c.cid = cid))).map WCand.status).getD .withdrawn

/-- The cursor walk of transfer in droop/rules/wigm_prf.py (lines
176-180): while the ballot is not exhausted and its top candidate is not
hopeful, move the cursor forward.  The first numeric argument is fuel (a
ranking never needs more steps than its length), the second the cursor. -/
def advanceWalk (cands : List WCand) (ranking : List ℕ) (weight : ℤ) :
    ℕ → ℕ → ℕ
  | 0, top => top
  | fuel + 1, top =>
    if top < ranking.length ∧ weight ≠ 0 ∧ statusOf cands (ranking.getD top 0) ≠ .hopeful
    then advanceWalk cands ranking weight fuel (top + 1)
    else top

/-- transfer of droop/rules/wigm_prf.py applied to a ballot: advance the
cursor to the next hopeful candidate, when one remains. -/
def transferBallot (cands : List WCand) (b : WBallot) : WBallot :=
  { b with top := advanceWalk cands b.ranking b.weight b.ranking.length b.top }

/-- Add an amount to the vote of the candidate with a given id. -/
def addVote (cands : List WCand) (cid : ℕ) (amt : ℤ) : List WCand :=
  cands.map (fun c => if c.cid = cid then { c with vote := c.vote + amt } else c)

/-- Modelled from the spec: byTieOrder of section 4.C is identical to
sortByOrder, sorting by ballot-file order (droop/election is not among
the sources). -/
def byTieOrderW (cs : List WCand) : List WCand :=
  cs.mergeSort (fun a b => decide (a.order ≤ b.order))

/-- breakTie of droop/rules/wigm_prf.py (lines 182-207): the first
candidate of the tied set in ballot-file order; none when the set is
empty. -/
def breakTieW (tied : List WCand) : Option WCand := (byTieOrderW tied).head?

/-- The maximum of a list of integers with first element as start
value, embedding max over a non-empty vote list. -/
def listMaxZ : List ℤ → ℤ
  | [] => 0
  | v :: vs => vs.foldl max v

/-- The per-ballot step of the surplus transfer (droop/rules/wigm_prf.py
lines 357-360): a ballot topped at the transferred candidate gets weight
mul(weight, surplus, round=down) divided by the candidate vote
(round=down), is advanced, and when not exhausted adds its vote to its
new top candidate; other ballots are untouched. -/
def transferStep (s surplus hvote : ℤ) (hcid : ℕ)
    (acc : List WCand × List WBallot) (b : WBallot) : List WCand × List WBallot :=
  if b.topRank = hcid then
    let b1 : WBallot := { b with weight := divDown s (mulDown s b.weight surplus) hvote }
    let b2 := transferBallot acc.1 b1
    if b2.exhausted then (acc.1, acc.2 ++ [b2])
    else (addVote acc.1 b2.topRank b2.vote, acc.2 ++ [b2])
  else (acc.1, acc.2 ++ [b])

/-- Step B.3 of droop/rules/wigm_prf.py (lines 350-362): when pending
candidates exist, the one with the highest vote (ties broken by
ballot-file order) is elected, every ballot topped at it is reweighted
by surplus over vote and transferred, and the vote of the candidate is
set to the quota.  The step runs even when the surplus is zero. -/
def transferHigh (s quota : ℤ) (cands : List WCand) (ballots : List WBallot) :
    List WCand × List WBallot :=
  let pending := cands.filter (fun c => decide (c.status = .pending))
  let high_vote := listMaxZ (pending.map WCand.vote)
  match breakTieW (pending.filter (fun c => decide (c.vote = high_vote))) with
  | none => (cands, ballots)
  | some high =>
    let cands1 := cands.map (fun c =>
      if c.cid = high.cid then { c with status := .elected } else c)
    let surplus := high.vote - quota
    let acc := ballots.foldl (transferStep s surplus high.vote high.cid) (cands1, [])
    (acc.1.map (fun c => if c.cid = high.cid then { c with vote := quota } else c), acc.2)

/-- The WIGM finalization walk (droop/rules/wigm_prf.py lines 389-393):
each remaining hopeful is elected while the elected count is below the
seat count and defeated otherwise; the first argument after the seat
count is the current elected count. -/
def wigmFinishWalk (nSeats : ℕ) : ℕ → List WCand → List WCand
  | _, [] => []
  | e, c :: cs =>
    if c.status = .hopeful then
      if e < nSeats then { c with status := .elected } :: wigmFinishWalk nSeats (e + 1) cs
      else { c with status := .defeated } :: wigmFinishWalk nSeats e cs
    else c :: wigmFinishWalk nSeats e cs

/-- The pending candidates of a WIGM candidate list. -/
def wpendingOf (cands : List WCand) : List WCand :=
  cands.filter (fun c => decide (c.status = .pending))

/-- The elected candidates of a WIGM candidate list. -/
def welectedOf (cands : List WCand) : List WCand :=
  cands.filter (fun c => decide (c.status = .elected))

/-- The hopeful candidates of a WIGM candidate list. -/
def whopefulOf (cands : List WCand) : List WCand :=
  cands.filter (fun c => decide (c.status = .hopeful))

/-- The defeated candidates of a WIGM candidate list. -/
def wdefeatedOf (cands : List WCand) : List WCand :=
  cands.filter (fun c => decide (c.status = .defeated))

/-- The non-withdrawn candidates of a WIGM candidate list. -/
def wliveOf (cands : List WCand) : List WCand :=
  cands.filter (fun c => decide (c.status ≠ .withdrawn))

/-- WIGM finalization (droop/rules/wigm_prf.py lines 387-393): first
elect every pending candidate, then walk the hopefuls electing while the
elected count is below the seat count and defeating the rest. -/
def wigmFinish (nSeats : ℕ) (cands : List WCand) : List WCand :=
  let cands1 := cands.map (fun c =>
    if c.status = .pending then { c with status := .elected } else c)
  wigmFinishWalk nSeats (welectedOf cands1).length cands1

/-- The hopeful and elected counts of the Meek counter, the state the
round-loop termination test reads. -/
structure MTally where
  h : ℕ
  e : ℕ
deriving DecidableEq, Repr

/-- The effect of one Meek round on the tally (droop/rules/meek.py lines
356-397): the iteration either elects k hopefuls, or a batch of b
hopefuls is defeated, or (status Omega or Stable) one hopeful is
defeated. -/
inductive MRoundOut
  | electedSome (k : ℕ)
  | batchDefeated (b : ℕ)
  | singleDefeat
deriving DecidableEq, Repr

/-- Apply the effect of one Meek round to the tally. -/
def applyMRound (t : MTally) : MRoundOut → MTally
  | .electedSome k => ⟨t.h - k, t.e + k⟩
  | .batchDefeated b => ⟨t.h - b, t.e⟩
  | .singleDefeat => ⟨t.h - 1, t.e⟩

/-- A Meek round effect is valid when it moves at least one hopeful and
no more than exist: the source elects via status IS_elected only when
some hopeful was elected, returns IS_batch only on a non-empty batch of
hopefuls, and defeats one hopeful on IS_omega and IS_stable. -/
def validMRound (t : MTally) : MRoundOut → Prop
  | .electedSome k => 1 ≤ k ∧ k ≤ t.h
  | .batchDefeated b => 1 ≤ b ∧ b ≤ t.h
  | .singleDefeat => 1 ≤ t.h

/-- The Meek round loop (droop/rules/meek.py line 356): run rounds while
countComplete fails, taking effects from the trace; the result is the
number of rounds run and the final tally. -/
def meekLoop (nSeats : ℕ) : List MRoundOut → MTally → ℕ × MTally
  | [], t => (0, t)
  | o :: os, t =>
    if countComplete nSeats t.h t.e then (0, t)
    else
      let out := meekLoop nSeats os (applyMRound t o)
      (out.1 + 1, out.2)

/-- A trace is valid for the Meek loop when every effect the loop
consumes is valid at the tally it acts on. -/
def validForMeekLoop (nSeats : ℕ) : MTally → List MRoundOut → Prop
  | _, [] => True
  | t, o :: os =>
    countComplete nSeats t.h t.e ∨
      (validMRound t o ∧ validForMeekLoop nSeats (applyMRound t o) os)

/-- The hopeful, pending and elected counts of the WIGM counter. -/
structure WTally where
  h : ℕ
  p : ℕ
  e : ℕ
deriving DecidableEq, Repr

/-- The action a WIGM round takes after pending the winners: batch
defeat of b hopefuls, transfer of one pending surplus, or defeat of the
lowest hopeful (droop/rules/wigm_prf.py steps B.2, B.3, B.4). -/
inductive WAct
  | batchDefeated (b : ℕ)
  | transferOne
  | defeatLow
deriving DecidableEq, Repr

/-- The effect of one WIGM round on the tally: first k hopefuls become
pending (step B.1), then one action runs. -/
structure WRound where
  pends : ℕ
  act : WAct
deriving DecidableEq, Repr

/-- Apply the effect of one WIGM round to the tally. -/
def applyWRound (t : WTally) (r : WRound) : WTally :=
  let t1 : WTally := ⟨t.h - r.pends, t.p + r.pends, t.e⟩
  match r.act with
  | .batchDefeated b => ⟨t1.h - b, t1.p, t1.e⟩
  | .transferOne => ⟨t1.h, t1.p - 1, t1.e + 1⟩
  | .defeatLow => ⟨t1.h - 1, t1.p, t1.e⟩

/-- A WIGM round effect is valid when the pends do not exceed the
hopefuls and the action has its source precondition: a batch is a
non-empty set of hopefuls, a transfer needs a pending candidate, a low
defeat needs a hopeful. -/
def validWRound (t : WTally) (r : WRound) : Prop :=
  r.pends ≤ t.h ∧
    match r.act with
    | .batchDefeated b => 1 ≤ b ∧ b ≤ t.h - r.pends
    | .transferOne => 1 ≤ t.p + r.pends
    | .defeatLow => 1 ≤ t.h - r.pends

/-- The WIGM round-loop condition (droop/rules/wigm_prf.py line 307):
the loop runs while the hopefuls exceed the seats left to fill and seats
are left. -/
def wigmLoopGoes (nSeats : ℕ) (t : WTally) : Prop :=
  (t.h : ℤ) > seatsLeftToFill nSeats t.e t.p ∧ seatsLeftToFill nSeats t.e t.p > 0

instance (nSeats : ℕ) (t : WTally) : Decidable (wigmLoopGoes nSeats t) :=
  inferInstanceAs (Decidable (_ ∧ _))

/-- The WIGM round loop (droop/rules/wigm_prf.py line 307): run rounds
while the loop condition holds, taking effects from the trace; the
result is the number of rounds run and the final tally. -/
def wigmLoop (nSeats : ℕ) : List WRound → WTally → ℕ × WTally
  | [], t => (0, t)
  | r :: rs, t =>
    if wigmLoopGoes nSeats t then
      let out := wigmLoop nSeats rs (applyWRound t r)
      (out.1 + 1, out.2)
    else (0, t)

/-- A trace is valid for the WIGM loop when every effect the loop
consumes is valid at the tally it acts on. -/
def validForWigmLoop (nSeats : ℕ) : WTally → List WRound → Prop
  | _, [] => True
  | t, r :: rs =>
    ¬wigmLoopGoes nSeats t ∨
      (validWRound t r ∧ validForWigmLoop nSeats (applyWRound t r) rs)

/-! Helper lemmas. -/

theorem fdiv_pos_den (a : ℤ) {b : ℤ} (hb : 0 < b) : a.fdiv b = a / b :=
  Int.fdiv_eq_ediv a hb.le

theorem divDown_cancel {s : ℤ} (hs : 0 < s) (votes : ℤ) (d : ℤ) (hd : 0 < d) :
    divDown s votes (d * s) = votes / d := by
  unfold divDown
  rw [fdiv_pos_den _ (mul_pos hd hs)]
  rw [mul_comm d s, mul_comm votes s]
  exact Int.mul_ediv_mul_of_pos votes d hs

/-- The hopeful keep-factor invariant of the Meek counter: every
candidate whose status is hopeful has keep factor V1. -/
def hopefulKfOne (s : ℤ) (cands : List MCand) : Prop :=
  ∀ c ∈ cands, c.status = .hopeful → c.kf = s

theorem hopefulKfOne_map (s : ℤ) (cands : List MCand) (f : MCand → MCand)
    (hf : ∀ c, (f c).status = .hopeful → ((f c).kf = s ∨ (f c = c ∧ c.status = .hopeful)))
    (h : hopefulKfOne s cands) : hopefulKfOne s (cands.map f) := by
  intro c hc hcs
  rcases List.mem_map.1 hc with ⟨c0, hc0, rfl⟩
  rcases hf c0 hcs with h1 | ⟨heq, hstat⟩
  · exact h1
  · rw [heq] at hcs ⊢
    exact h c0 hc0 hcs

theorem hopefulKfOne_updateKeepFactors (s q : ℤ) (cands : List MCand)
    (h : hopefulKfOne s cands) : hopefulKfOne s (updateKeepFactors s q cands) := by
  refine hopefulKfOne_map s cands _ (fun c hc => ?_) h
  by_cases he : c.status = .elected
  · simp only [updateKeepFactors, if_pos he] at hc
    exact absurd hc (by simp [he])
  · right
    simp only [if_neg he] at hc ⊢
    exact ⟨trivial, hc⟩

theorem hopefulKfOne_electHopefuls (s q : ℤ) (cands : List MCand)
    (h : hopefulKfOne s cands) : hopefulKfOne s (electHopefuls q cands) := by
  refine hopefulKfOne_map s cands _ (fun c hc => ?_) h
  by_cases he : c.status = .hopeful ∧ hasQuotaRounded c.vote q
  · simp only [electHopefuls, if_pos he] at hc
    exact absurd hc (by simp)
  · right
    simp only [if_neg he] at hc ⊢
    exact ⟨trivial, hc⟩

theorem hopefulKfOne_finishWalk (s : ℤ) (nSeats : ℕ) :
    ∀ (e : ℕ) (cands : List MCand), hopefulKfOne s cands →
      hopefulKfOne s (meekFinishWalk nSeats e cands) := by
  intro e cands
  induction cands generalizing e with
  | nil => intro _; exact fun c hc => absurd hc (List.not_mem_nil c)
  | cons c0 cs ih =>
    intro h
    have htail : hopefulKfOne s cs := fun c hc hs => h c (List.mem_cons_of_mem c0 hc) hs
    have hhead := fun hs => h c0 (List.mem_cons_self c0 cs) hs
    intro c hc hcs
    by_cases hst : c0.status = .hopeful
    · by_cases helt : e < nSeats
      · simp only [meekFinishWalk, if_pos hst, if_pos helt] at hc
        rcases List.mem_cons.1 hc with rfl | hmem
        · exact absurd hcs (by simp)
        · exact ih (e + 1) htail c hmem hcs
      · simp only [meekFinishWalk, if_pos hst, if_neg helt] at hc
        rcases List.mem_cons.1 hc with rfl | hmem
        · exact absurd hcs (by simp)
        · exact ih e htail c hmem hcs
    · simp only [meekFinishWalk, if_neg hst] at hc
      rcases List.mem_cons.1 hc with rfl | hmem
      · exact hhead hcs
      · exact ih e htail c hmem hcs

theorem hopefulKfOne_applyMeekOp (s : ℤ) (cands : List MCand) (op : MeekOp)
    (h : hopefulKfOne s cands) : hopefulKfOne s (applyMeekOp s cands op) := by
  cases op with
  | update q => exact hopefulKfOne_updateKeepFactors s q cands h
  | electAll q => exact hopefulKfOne_electHopefuls s q cands h
  | electOne cid =>
    refine hopefulKfOne_map s cands _ (fun c hc => ?_) h
    by_cases he : c.cid = cid ∧ c.status = .hopeful
    · simp only [if_pos he] at hc
      exact absurd hc (by simp)
    · right
      simp only [if_neg he] at hc ⊢
      exact ⟨trivial, hc⟩
  | defeatOne cid =>
    refine hopefulKfOne_map s cands _ (fun c hc => ?_) h
    by_cases he : c.cid = cid
    · simp only [if_pos he] at hc
      exact absurd hc (by simp)
    · right
      simp only [if_neg he] at hc ⊢
      exact ⟨trivial, hc⟩
  | finish nSeats => exact hopefulKfOne_finishWalk s nSeats _ cands h

theorem hopefulKfOne_meekInit (s : ℤ) (profile : List (ℕ × ℕ × Bool)) :
    hopefulKfOne s (meekInit s profile) := by
  intro c hc hcs
  rcases List.mem_map.1 hc with ⟨p, _, rfl⟩
  by_cases hw : p.2.2
  · simp only [meekInit, if_pos hw] at hcs ⊢
    exact absurd hcs (by simp)
  · simp only [meekInit, if_neg hw]

theorem mulUp_mono_left {s : ℤ} (hs : 0 < s) {a b c : ℤ} (h : a ≤ b) (hc : 0 ≤ c) :
    mulUp s a c ≤ mulUp s b c := by
  unfold mulUp
  rw [fdiv_pos_den _ hs, fdiv_pos_den _ hs]
  exact Int.ediv_le_ediv hs (by nlinarith)

theorem mulUp_one_left {s : ℤ} (hs : 0 < s) {q : ℤ} (hq : 0 ≤ q) : mulUp s s q = q := by
  unfold mulUp
  rw [fdiv_pos_den _ hs]
  have h1 : s * q + (s - 1) = (s - 1) + q * s := by ring
  rw [h1, Int.add_mul_ediv_right _ _ hs.ne.symm,
    Int.ediv_eq_zero_of_lt (by omega) (by omega), zero_add]

theorem updateKF_nonneg {s kf q v : ℤ} (hs : 0 < s) (hkf : 0 ≤ kf) (hq : 0 ≤ q)
    (hv : 0 < v) : 0 ≤ updateKF s kf q v := by
  have hnum : (0 : ℤ) ≤ kf * q + (s - 1) := by nlinarith
  have ht : 0 ≤ mulUp s kf q := by
    unfold mulUp
    rw [fdiv_pos_den _ hs]
    exact Int.ediv_nonneg hnum hs.le
  unfold updateKF divUp
  rw [fdiv_pos_den _ hv]
  exact Int.ediv_nonneg (by nlinarith) hv.le

theorem updateKF_le_one {s kf q v : ℤ} (hs : 0 < s) (hkf0 : 0 ≤ kf) (hkf : kf ≤ s)
    (hq : 0 ≤ q) (hqv : q ≤ v) (hv : 0 < v) : updateKF s kf q v ≤ s := by
  have ht : mulUp s kf q ≤ q :=
    (mulUp_mono_left hs hkf hq).trans (mulUp_one_left hs hq).le
  unfold updateKF divUp
  rw [fdiv_pos_den _ hv]
  have h2 : (v * s + (v - 1)) / v = s := by
    have h1 : v * s + (v - 1) = (v - 1) + s * v := by ring
    rw [h1, Int.add_mul_ediv_right _ _ hv.ne.symm,
      Int.ediv_eq_zero_of_lt (by omega) (by omega), zero_add]
  calc (mulUp s kf q * s + (v - 1)) / v ≤ (v * s + (v - 1)) / v :=
        Int.ediv_le_ediv hv (by nlinarith)
    _ = s := h2

theorem updateKF_le_kf {s kf q v : ℤ} (hs : 0 < s) (hkf : 0 ≤ kf) (hq : 0 ≤ q)
    (hv : 0 < v) (hgap : s - 1 ≤ kf * (v - q)) : updateKF s kf q v ≤ kf := by
  have ht : mulUp s kf q * s ≤ kf * q + (s - 1) := by
    unfold mulUp
    rw [fdiv_pos_den _ hs]
    exact Int.ediv_mul_le _ hs.ne.symm
  unfold updateKF divUp
  rw [fdiv_pos_den _ hv]
  have hlt : mulUp s kf q * s + (v - 1) < (kf + 1) * v := by nlinarith
  have := (Int.ediv_lt_iff_lt_mul hv).2 hlt
  omega

theorem meekBallotLoop_sum {V : Type} [AddCommGroup V] [LinearOrder V]
    (kvF wtF : V → V → V) (kf : ℕ → V) (m : ℕ) (A : Finset ℕ)
    (hA : ∀ c, c ∉ A → ∀ x, kvF x (kf c) = 0) :
    ∀ (rk : List ℕ) (w r : V) (votes : ℕ → V),
      (∑ a ∈ A, (meekBallotLoop kvF wtF kf m rk w r votes).1 a) +
          (meekBallotLoop kvF wtF kf m rk w r votes).2 =
        (∑ a ∈ A, votes a) + r := by
  intro rk
  induction rk with
  | nil => intro w r votes; simp [meekBallotLoop]
  | cons c cs ih =>
    intro w r votes
    have hstep : (∑ a ∈ A, Function.update votes c (votes c + kvF (m • w) (kf c)) a) +
        (r - kvF (m • w) (kf c)) = (∑ a ∈ A, votes a) + r := by
      by_cases hc : c ∈ A
      · rw [Finset.sum_update_of_mem hc]
        rw [← Finset.sum_erase_add A votes hc]
        rw [Finset.erase_eq]
        abel
      · rw [Finset.sum_update_of_not_mem hc, hA c hc]
        abel
    by_cases hw : wtF w (kf c) ≤ 0
    · simp only [meekBallotLoop, if_pos hw]
      exact hstep
    · simp only [meekBallotLoop, if_neg hw]
      rw [ih]
      exact hstep

theorem meekDistribute_sum {V : Type} [AddCommGroup V] [LinearOrder V]
    (kvF wtF : V → V → V) (kf : ℕ → V) (one : V) (A : Finset ℕ)
    (hA : ∀ c, c ∉ A → ∀ x, kvF x (kf c) = 0) :
    ∀ (bs : List MBallot) (votes : ℕ → V) (r : V),
      (∑ a ∈ A, (meekDistribute kvF wtF kf one bs (votes, r)).1 a) +
          (meekDistribute kvF wtF kf one bs (votes, r)).2 =
        (∑ a ∈ A, votes a) + r + ((bs.map MBallot.mult).sum) • one := by
  intro bs
  induction bs with
  | nil => intro votes r; simp [meekDistribute]
  | cons b rest ih =>
    intro votes r
    have hball := meekBallotLoop_sum kvF wtF kf b.mult A hA b.ranking one
      (b.mult • one) votes
    simp only [meekDistribute]
    rw [ih]
    have : (∑ a ∈ A, (meekBallotLoop kvF wtF kf b.mult b.ranking one
        (b.mult • one) votes).1 a) =
        (∑ a ∈ A, votes a) + b.mult • one -
          (meekBallotLoop kvF wtF kf b.mult b.ranking one (b.mult • one) votes).2 := by
      rw [← hball]; abel
    rw [this, List.map_cons, List.sum_cons, add_nsmul]
    abel

theorem foldl_min_le_start : ∀ (vs : List ℤ) (a : ℤ), vs.foldl min a ≤ a := by
  intro vs
  induction vs with
  | nil => intro a; simp
  | cons v vs ih =>
    intro a
    calc (v :: vs).foldl min a = vs.foldl min (min a v) := rfl
      _ ≤ min a v := ih (min a v)
      _ ≤ a := min_le_left a v

theorem foldl_min_le_mem : ∀ (vs : List ℤ) (a x : ℤ), x ∈ vs → vs.foldl min a ≤ x := by
  intro vs
  induction vs with
  | nil => intro a x hx; exact absurd hx (List.not_mem_nil x)
  | cons v vs ih =>
    intro a x hx
    rcases List.mem_cons.1 hx with rfl | hx
    · calc (x :: vs).foldl min a = vs.foldl min (min a x) := rfl
        _ ≤ min a x := foldl_min_le_start vs (min a x)
        _ ≤ x := min_le_right a x
    · exact ih (min a v) x hx

theorem foldl_min_mem : ∀ (vs : List ℤ) (a : ℤ), vs.foldl min a = a ∨ vs.foldl min a ∈ vs := by
  intro vs
  induction vs with
  | nil => intro a; left; rfl
  | cons v vs ih =>
    intro a
    rcases ih (min a v) with h | h
    · rcases min_choice a v with hm | hm
      · left
        calc (v :: vs).foldl min a = vs.foldl min (min a v) := rfl
          _ = min a v := h
          _ = a := hm
      · right
        have hv : (v :: vs).foldl min a = v := by
          show vs.foldl min (min a v) = v
          rw [h, hm]
        rw [hv]
        exact List.mem_cons_self v vs
    · right
      exact List.mem_cons_of_mem v h

theorem listMinZ_le {l : List ℤ} {x : ℤ} (hx : x ∈ l) : listMinZ l ≤ x := by
  cases l with
  | nil => exact absurd hx (List.not_mem_nil x)
  | cons v vs =>
    rcases List.mem_cons.1 hx with rfl | hx
    · exact foldl_min_le_start vs x
    · exact foldl_min_le_mem vs v x hx

theorem listMinZ_mem {l : List ℤ} (hl : l ≠ []) : listMinZ l ∈ l := by
  cases l with
  | nil => exact absurd rfl hl
  | cons v vs =>
    rcases foldl_min_mem vs v with h | h
    · have hv : listMinZ (v :: vs) = v := h
      rw [hv]
      exact List.mem_cons_self v vs
    · exact List.mem_cons_of_mem v h

theorem orderLe_trans (a b c : MCand) :
    decide (a.order ≤ b.order) = true → decide (b.order ≤ c.order) = true →
      decide (a.order ≤ c.order) = true := by
  simp only [decide_eq_true_eq]
  omega

theorem orderLe_total (a b : MCand) :
    (decide (a.order ≤ b.order) || decide (b.order ≤ a.order)) = true := by
  simp only [Bool.or_eq_true, decide_eq_true_eq]
  omega

theorem sortByOrder_head_min {l : List MCand} {t : MCand}
    (h : (sortByOrder l).head? = some t) :
    t ∈ l ∧ ∀ d ∈ l, t.order ≤ d.order := by
  have hperm : (sortByOrder l).Perm l := List.mergeSort_perm l _
  have hsorted := List.sorted_mergeSort orderLe_trans orderLe_total l
  rcases hs : sortByOrder l with _ | ⟨t0, rest⟩
  · rw [hs] at h
    exact absurd h (by simp)
  · rw [hs] at h
    have ht0 : t0 = t := by
      simpa using h
    subst ht0
    rw [hs] at hperm
    have hrest : ∀ d ∈ rest, t0.order ≤ d.order := by
      rw [show l.mergeSort (fun a b => decide (a.order ≤ b.order)) = sortByOrder l from rfl,
        hs] at hsorted
      intro d hd
      have := (List.pairwise_cons.1 hsorted).1 d hd
      simpa using this
    constructor
    · exact hperm.mem_iff.1 (List.mem_cons_self t0 rest)
    · intro d hd
      rcases List.mem_cons.1 (hperm.symm.mem_iff.1 hd) with rfl | hdr
      · exact le_refl _
      · exact hrest d hdr

theorem meekLoop_terminates (nSeats : ℕ) :
    ∀ (os : List MRoundOut) (t : MTally),
      validForMeekLoop nSeats t os → t.h ≤ os.length →
      countComplete nSeats (meekLoop nSeats os t).2.h (meekLoop nSeats os t).2.e ∧
        (meekLoop nSeats os t).1 ≤ t.h := by
  intro os
  induction os with
  | nil =>
    intro t _ hlen
    have hh : t.h = 0 := Nat.le_zero.1 hlen
    constructor
    · show countComplete nSeats t.h t.e
      unfold countComplete seatsLeftToFill
      omega
    · exact Nat.zero_le t.h
  | cons o os ih =>
    intro t hvalid hlen
    by_cases hc : countComplete nSeats t.h t.e
    · simp only [meekLoop, if_pos hc]
      exact ⟨hc, Nat.zero_le t.h⟩
    · simp only [meekLoop, if_neg hc]
      rcases hvalid with hv | ⟨hvo, hvrest⟩
      · exact absurd hv hc
      · have hh1 : 1 ≤ t.h := by
          unfold countComplete seatsLeftToFill at hc
          omega
        have hdec : (applyMRound t o).h + 1 ≤ t.h := by
          cases o with
          | electedSome k =>
            simp only [validMRound] at hvo
            simp only [applyMRound]
            omega
          | batchDefeated b =>
            simp only [validMRound] at hvo
            simp only [applyMRound]
            omega
          | singleDefeat =>
            simp only [applyMRound]
            omega
        have hlen2 : (applyMRound t o).h ≤ os.length := by
          have := List.length_cons o os ▸ hlen
          omega
        obtain ⟨hdone, hrounds⟩ := ih (applyMRound t o) hvrest hlen2
        exact ⟨hdone, by omega⟩

theorem wigmLoop_terminates (nSeats : ℕ) :
    ∀ (rs : List WRound) (t : WTally),
      validForWigmLoop nSeats t rs → 2 * t.h + t.p ≤ rs.length →
      ¬wigmLoopGoes nSeats (wigmLoop nSeats rs t).2 ∧
        (wigmLoop nSeats rs t).1 ≤ 2 * t.h + t.p := by
  intro rs
  induction rs with
  | nil =>
    intro t _ hlen
    simp only [List.length_nil] at hlen
    have hh : t.h = 0 := by omega
    constructor
    · show ¬wigmLoopGoes nSeats t
      unfold wigmLoopGoes seatsLeftToFill
      omega
    · exact Nat.zero_le _
  | cons r rs ih =>
    intro t hvalid hlen
    by_cases hg : wigmLoopGoes nSeats t
    · simp only [wigmLoop, if_pos hg]
      rcases hvalid with hv | ⟨hvr, hvrest⟩
      · exact absurd hg hv
      · rcases r with ⟨pends, act⟩
        have hdec : 2 * (applyWRound t ⟨pends, act⟩).h + (applyWRound t ⟨pends, act⟩).p + 1 ≤
            2 * t.h + t.p := by
          cases act with
          | batchDefeated b =>
            simp only [validWRound] at hvr
            simp only [applyWRound]
            omega
          | transferOne =>
            simp only [validWRound] at hvr
            simp only [applyWRound]
            omega
          | defeatLow =>
            simp only [validWRound] at hvr
            simp only [applyWRound]
            omega
        have hlen2 : 2 * (applyWRound t ⟨pends, act⟩).h + (applyWRound t ⟨pends, act⟩).p ≤
            rs.length := by
          simp only [List.length_cons] at hlen
          omega
        obtain ⟨hdone, hrounds⟩ := ih (applyWRound t ⟨pends, act⟩) hvrest hlen2
        exact ⟨hdone, by omega⟩
    · simp only [wigmLoop, if_neg hg]
      exact ⟨hg, Nat.zero_le _⟩

theorem wigmFinishWalk_counts (nSeats : ℕ) :
    ∀ (l : List WCand) (e : ℕ),
      (welectedOf (wigmFinishWalk nSeats e l)).length =
          (welectedOf l).length + min (nSeats - e) (whopefulOf l).length ∧
      (wpendingOf (wigmFinishWalk nSeats e l)).length = (wpendingOf l).length := by
  intro l
  induction l with
  | nil =>
    intro e
    simp [wigmFinishWalk, welectedOf, wpendingOf, whopefulOf]
  | cons c cs ih =>
    intro e
    obtain ⟨h1, h2⟩ := ih e
    obtain ⟨h1s, h2s⟩ := ih (e + 1)
    cases hcs : c.status with
    | hopeful =>
      by_cases he : e < nSeats
      · simp only [wigmFinishWalk, hcs, welectedOf, wpendingOf, whopefulOf,
          List.filter_cons, he] at h1s h2s ⊢
        simp at h1s h2s ⊢
        omega
      · simp only [wigmFinishWalk, hcs, welectedOf, wpendingOf, whopefulOf,
          List.filter_cons, he] at h1 h2 ⊢
        simp at h1 h2 ⊢
        omega
    | pending =>
      simp only [wigmFinishWalk, hcs, welectedOf, wpendingOf, whopefulOf,
        List.filter_cons] at h1 h2 ⊢
      simp [List.filter_cons, hcs] at h1 h2 ⊢
      omega
    | elected =>
      simp only [wigmFinishWalk, hcs, welectedOf, wpendingOf, whopefulOf,
        List.filter_cons] at h1 h2 ⊢
      simp [List.filter_cons, hcs] at h1 h2 ⊢
      omega
    | defeated =>
      simp only [wigmFinishWalk, hcs, welectedOf, wpendingOf, whopefulOf,
        List.filter_cons] at h1 h2 ⊢
      simp [List.filter_cons, hcs] at h1 h2 ⊢
      omega
    | withdrawn =>
      simp only [wigmFinishWalk, hcs, welectedOf, wpendingOf, whopefulOf,
        List.filter_cons] at h1 h2 ⊢
      simp [List.filter_cons, hcs] at h1 h2 ⊢
      omega

theorem meekFinishWalk_counts (nSeats : ℕ) :
    ∀ (l : List MCand) (e : ℕ),
      (electedOf (meekFinishWalk nSeats e l)).length =
        (electedOf l).length + min (nSeats - e) (hopefulOf l).length := by
  intro l
  induction l with
  | nil =>
    intro e
    simp [meekFinishWalk, electedOf, hopefulOf]
  | cons c cs ih =>
    intro e
    have h1 := ih e
    have h1s := ih (e + 1)
    cases hcs : c.status with
    | hopeful =>
      by_cases he : e < nSeats
      · simp only [meekFinishWalk, hcs, electedOf, hopefulOf, List.filter_cons, he] at h1s ⊢
        simp at h1s ⊢
        omega
      · simp only [meekFinishWalk, hcs, electedOf, hopefulOf, List.filter_cons, he] at h1 ⊢
        simp at h1 ⊢
        omega
    | elected =>
      simp only [meekFinishWalk, hcs, electedOf, hopefulOf, List.filter_cons] at h1 ⊢
      simp [List.filter_cons, hcs] at h1 ⊢
      omega
    | defeated =>
      simp only [meekFinishWalk, hcs, electedOf, hopefulOf, List.filter_cons] at h1 ⊢
      simp [List.filter_cons, hcs] at h1 ⊢
      omega
    | withdrawn =>
      simp only [meekFinishWalk, hcs, electedOf, hopefulOf, List.filter_cons] at h1 ⊢
      simp [List.filter_cons, hcs] at h1 ⊢
      omega

theorem wlive_partition (l : List WCand) :
    (wliveOf l).length = (welectedOf l).length + (wpendingOf l).length +
      (whopefulOf l).length + (wdefeatedOf l).length := by
  induction l with
  | nil => simp [wliveOf, welectedOf, wpendingOf, whopefulOf, wdefeatedOf]
  | cons c cs ih =>
    cases hcs : c.status <;>
      simp [wliveOf, welectedOf, wpendingOf, whopefulOf, wdefeatedOf,
        List.filter_cons, hcs] at ih ⊢ <;>
      omega

theorem mlive_partition (l : List MCand) :
    (liveOf l).length = (electedOf l).length + (hopefulOf l).length +
      (defeatedOf l).length := by
  induction l with
  | nil => simp [liveOf, electedOf, hopefulOf, defeatedOf]
  | cons c cs ih =>
    cases hcs : c.status <;>
      simp [liveOf, electedOf, hopefulOf, defeatedOf, List.filter_cons, hcs] at ih ⊢ <;>
      omega

theorem promote_counts (l : List WCand) :
    (welectedOf (l.map (fun c =>
        if c.status = .pending then { c with status := .elected } else c))).length =
        (welectedOf l).length + (wpendingOf l).length ∧
    (whopefulOf (l.map (fun c =>
        if c.status = .pending then { c with status := .elected } else c))).length =
        (whopefulOf l).length ∧
    (wpendingOf (l.map (fun c =>
        if c.status = .pending then { c with status := .elected } else c))).length = 0 := by
  induction l with
  | nil => simp [welectedOf, wpendingOf, whopefulOf]
  | cons c cs ih =>
    obtain ⟨ih1, ih2, ih3⟩ := ih
    cases hcs : c.status <;>
      simp [welectedOf, wpendingOf, whopefulOf, List.filter_cons, hcs] at ih1 ih2 ih3 ⊢ <;>
      exact ⟨by omega, by omega, ih3⟩

theorem foldl_max_ge_start : ∀ (vs : List ℤ) (a : ℤ), a ≤ vs.foldl max a := by
  intro vs
  induction vs with
  | nil => intro a; simp
  | cons v vs ih =>
    intro a
    calc a ≤ max a v := le_max_left a v
      _ ≤ vs.foldl max (max a v) := ih (max a v)

theorem foldl_max_ge_mem : ∀ (vs : List ℤ) (a x : ℤ), x ∈ vs → x ≤ vs.foldl max a := by
  intro vs
  induction vs with
  | nil => intro a x hx; exact absurd hx (List.not_mem_nil x)
  | cons v vs ih =>
    intro a x hx
    rcases List.mem_cons.1 hx with rfl | hx
    · calc x ≤ max a x := le_max_right a x
        _ ≤ vs.foldl max (max a x) := foldl_max_ge_start vs (max a x)
    · exact ih (max a v) x hx

theorem foldl_max_mem : ∀ (vs : List ℤ) (a : ℤ), vs.foldl max a = a ∨ vs.foldl max a ∈ vs := by
  intro vs
  induction vs with
  | nil => intro a; left; rfl
  | cons v vs ih =>
    intro a
    rcases ih (max a v) with h | h
    · rcases max_choice a v with hm | hm
      · left
        calc (v :: vs).foldl max a = vs.foldl max (max a v) := rfl
          _ = max a v := h
          _ = a := hm
      · right
        have hv : (v :: vs).foldl max a = v := by
          show vs.foldl max (max a v) = v
          rw [h, hm]
        rw [hv]
        exact List.mem_cons_self v vs
    · right
      exact List.mem_cons_of_mem v h

theorem listMaxZ_ge {l : List ℤ} {x : ℤ} (hx : x ∈ l) : x ≤ listMaxZ l := by
  cases l with
  | nil => exact absurd hx (List.not_mem_nil x)
  | cons v vs =>
    rcases List.mem_cons.1 hx with rfl | hx
    · exact foldl_max_ge_start vs x
    · exact foldl_max_ge_mem vs v x hx

theorem listMaxZ_mem {l : List ℤ} (hl : l ≠ []) : listMaxZ l ∈ l := by
  cases l with
  | nil => exact absurd rfl hl
  | cons v vs =>
    rcases foldl_max_mem vs v with h | h
    · have hv : listMaxZ (v :: vs) = v := h
      rw [hv]
      exact List.mem_cons_self v vs
    · exact List.mem_cons_of_mem v h

theorem wOrderLe_trans (a b c : WCand) :
    decide (a.order ≤ b.order) = true → decide (b.order ≤ c.order) = true →
      decide (a.order ≤ c.order) = true := by
  simp only [decide_eq_true_eq]
  omega

theorem wOrderLe_total (a b : WCand) :
    (decide (a.order ≤ b.order) || decide (b.order ≤ a.order)) = true := by
  simp only [Bool.or_eq_true, decide_eq_true_eq]
  omega

theorem byTieOrderW_head_min {l : List WCand} {t : WCand}
    (h : (byTieOrderW l).head? = some t) :
    t ∈ l ∧ ∀ d ∈ l, t.order ≤ d.order := by
  have hperm : (byTieOrderW l).Perm l := List.mergeSort_perm l _
  have hsorted := List.sorted_mergeSort wOrderLe_trans wOrderLe_total l
  rcases hs : byTieOrderW l with _ | ⟨t0, rest⟩
  · rw [hs] at h
    exact absurd h (by simp)
  · rw [hs] at h
    have ht0 : t0 = t := by
      simpa using h
    subst ht0
    rw [hs] at hperm
    have hrest : ∀ d ∈ rest, t0.order ≤ d.order := by
      rw [show l.mergeSort (fun a b => decide (a.order ≤ b.order)) = byTieOrderW l from rfl,
        hs] at hsorted
      intro d hd
      have := (List.pairwise_cons.1 hsorted).1 d hd
      simpa using this
    constructor
    · exact hperm.mem_iff.1 (List.mem_cons_self t0 rest)
    · intro d hd
      rcases List.mem_cons.1 (hperm.symm.mem_iff.1 hd) with rfl | hdr
      · exact le_refl _
      · exact hrest d hdr

theorem statusOf_addVote (cid : ℕ) (amt : ℤ) (x : ℕ) :
    ∀ (cs : List WCand), statusOf (addVote cs cid amt) x = statusOf cs x := by
  intro cs
  induction cs with
  | nil => rfl
  | cons c cs ih =>
    have hcid : (if c.cid = cid then { c with vote := c.vote + amt } else c).cid = c.cid := by
      by_cases hc : c.cid = cid
      · rw [if_pos hc]
      · rw [if_neg hc]
    have hstat : (if c.cid = cid then { c with vote := c.vote + amt } else c).status =
        c.status := by
      by_cases hc : c.cid = cid
      · rw [if_pos hc]
      · rw [if_neg hc]
    simp only [addVote, List.map_cons, statusOf, List.find?_cons] at ih ⊢
    by_cases hx : c.cid = x
    · rw [show (decide ((if c.cid = cid then { c with vote := c.vote + amt } else c).cid = x))
          = true by rw [hcid]; simp [hx]]
      rw [show (decide (c.cid = x)) = true by simp [hx]]
      simp [hstat]
    · rw [show (decide ((if c.cid = cid then { c with vote := c.vote + amt } else c).cid = x))
          = false by rw [hcid]; simp [hx]]
      rw [show (decide (c.cid = x)) = false by simp [hx]]
      exact ih

theorem advanceWalk_congr {cs cs' : List WCand} (h : ∀ x, statusOf cs x = statusOf cs' x)
    (ranking : List ℕ) (w : ℤ) :
    ∀ (fuel top : ℕ), advanceWalk cs ranking w fuel top = advanceWalk cs' ranking w fuel top := by
  intro fuel
  induction fuel with
  | zero => intro top; rfl
  | succ f ih =>
    intro top
    simp only [advanceWalk, h, ih]

theorem transferBallot_congr {cs cs' : List WCand} (h : ∀ x, statusOf cs x = statusOf cs' x)
    (b : WBallot) : transferBallot cs b = transferBallot cs' b := by
  unfold transferBallot
  rw [advanceWalk_congr h]

theorem addVote_cid_status {cs : List WCand} {cid : ℕ} {amt : ℤ} {c : WCand}
    (hc : c ∈ addVote cs cid amt) : ∃ c0 ∈ cs, c.cid = c0.cid ∧ c.status = c0.status := by
  rcases List.mem_map.1 hc with ⟨c0, hc0, rfl⟩
  refine ⟨c0, hc0, ?_, ?_⟩ <;> by_cases h0 : c0.cid = cid <;> simp [h0]

theorem transferFold_spec (s surplus hvote : ℤ) (hcid : ℕ) (cs₀ : List WCand) :
    ∀ (bs : List WBallot) (cs : List WCand) (done : List WBallot),
      (∀ x, statusOf cs x = statusOf cs₀ x) →
      (∀ c ∈ cs, c.cid = hcid → c.status = .elected) →
      (bs.foldl (transferStep s surplus hvote hcid) (cs, done)).2 =
          done ++ bs.map (fun b =>
            if b.topRank = hcid then
              transferBallot cs₀
                { b with weight := divDown s (mulDown s b.weight surplus) hvote }
            else b) ∧
        (∀ c ∈ (bs.foldl (transferStep s surplus hvote hcid) (cs, done)).1,
          c.cid = hcid → c.status = .elected) := by
  intro bs
  induction bs with
  | nil =>
    intro cs done hst hel
    simp only [List.foldl_nil, List.map_nil, List.append_nil]
    exact ⟨trivial, hel⟩
  | cons b bs ih =>
    intro cs done hst hel
    by_cases htop : b.topRank = hcid
    · have hb2 : transferBallot cs { b with weight := divDown s (mulDown s b.weight surplus) hvote } =
          transferBallot cs₀ { b with weight := divDown s (mulDown s b.weight surplus) hvote } :=
        transferBallot_congr hst _
      by_cases hex : (transferBallot cs
          { b with weight := divDown s (mulDown s b.weight surplus) hvote }).exhausted
      · have hstep : transferStep s surplus hvote hcid (cs, done) b =
            (cs, done ++ [transferBallot cs₀
              { b with weight := divDown s (mulDown s b.weight surplus) hvote }]) := by
          simp only [transferStep]
          rw [if_pos htop, if_pos hex, hb2]
        simp only [List.foldl_cons, hstep]
        obtain ⟨h1, h2⟩ := ih cs (done ++ [transferBallot cs₀
          { b with weight := divDown s (mulDown s b.weight surplus) hvote }]) hst hel
        rw [h1]
        constructor
        · simp [htop]
        · exact h2
      · have hstep : transferStep s surplus hvote hcid (cs, done) b =
            (addVote cs (transferBallot cs₀
                { b with weight := divDown s (mulDown s b.weight surplus) hvote }).topRank
              (transferBallot cs₀
                { b with weight := divDown s (mulDown s b.weight surplus) hvote }).vote,
             done ++ [transferBallot cs₀
              { b with weight := divDown s (mulDown s b.weight surplus) hvote }]) := by
          simp only [transferStep]
          rw [if_pos htop, if_neg hex, hb2]
        simp only [List.foldl_cons, hstep]
        obtain ⟨h1, h2⟩ := ih _ _
          (fun x => (statusOf_addVote _ _ x _).trans (hst x))
          (fun c hc hcc => by
            obtain ⟨c0, hc0, hcid0, hstat0⟩ := addVote_cid_status hc
            rw [hstat0]
            exact hel c0 hc0 (hcid0 ▸ hcc))
        rw [h1]
        constructor
        · simp [htop]
        · exact h2
    · have hstep : transferStep s surplus hvote hcid (cs, done) b = (cs, done ++ [b]) := by
        simp only [transferStep, if_neg htop]
      simp only [List.foldl_cons, hstep]
      obtain ⟨h1, h2⟩ := ih cs (done ++ [b]) hst hel
      rw [h1]
      constructor
      · simp [htop]
      · exact h2

theorem groupStep_flatten (surplus : ℤ) :
    ∀ (l : List MCand) (acc : List (List MCand) × List MCand × ℤ),
      (l.foldl (groupStep surplus) acc).1.flatten ++ (l.foldl (groupStep surplus) acc).2.1
        = acc.1.flatten ++ acc.2.1 ++ l := by
  intro l
  induction l with
  | nil => intro acc; simp
  | cons c cs ih =>
    intro acc
    rw [List.foldl_cons, ih]
    unfold groupStep
    by_cases hc : acc.2.2 + surplus ≥ c.vote
    · rw [if_pos hc]
      simp
    · rw [if_neg hc]
      by_cases hg : acc.2.1.isEmpty
      · simp only [if_pos hg]
        have hge : acc.2.1 = [] := List.isEmpty_iff.1 hg
        simp [hge]
      · simp only [if_neg hg]
        simp

theorem sortedGroups_flatten (surplus : ℤ) (l : List MCand) :
    (sortedGroups surplus l).flatten = l := by
  have h := groupStep_flatten surplus l ([], [], 0)
  simp only [List.flatten_nil, List.nil_append] at h
  simp only [sortedGroups]
  by_cases hg : (l.foldl (groupStep surplus) ([], [], 0)).2.1.isEmpty
  · rw [if_pos hg]
    have hge : (l.foldl (groupStep surplus) ([], [], 0)).2.1 = [] := List.isEmpty_iff.1 hg
    rw [hge, List.append_nil] at h
    exact h
  · rw [if_neg hg, List.flatten_append]
    simpa using h

theorem groupStep_groups_ne (surplus : ℤ) :
    ∀ (l : List MCand) (acc : List (List MCand) × List MCand × ℤ),
      (∀ g ∈ acc.1, g ≠ []) →
      ∀ g ∈ (l.foldl (groupStep surplus) acc).1, g ≠ [] := by
  intro l
  induction l with
  | nil => intro acc h; exact h
  | cons c cs ih =>
    intro acc h
    rw [List.foldl_cons]
    refine ih (groupStep surplus acc c) ?_
    unfold groupStep
    by_cases hc : acc.2.2 + surplus ≥ c.vote
    · rw [if_pos hc]
      exact h
    · rw [if_neg hc]
      by_cases hg : acc.2.1.isEmpty
      · simp only [if_pos hg]
        exact h
      · simp only [if_neg hg]
        intro g hgmem
        rcases List.mem_append.1 hgmem with hgmem | hgmem
        · exact h g hgmem
        · rw [List.mem_singleton.1 hgmem]
          exact fun hemp => hg (by rw [hemp]; rfl)

theorem sortedGroups_ne (surplus : ℤ) (l : List MCand) :
    ∀ g ∈ sortedGroups surplus l, g ≠ [] := by
  simp only [sortedGroups]
  by_cases hg : (l.foldl (groupStep surplus) ([], [], 0)).2.1.isEmpty
  · rw [if_pos hg]
    exact groupStep_groups_ne surplus l ([], [], 0) (by intro g h; exact absurd h (List.not_mem_nil g))
  · rw [if_neg hg]
    intro g hgmem
    rcases List.mem_append.1 hgmem with hgmem | hgmem
    · exact groupStep_groups_ne surplus l ([], [], 0)
        (by intro g h; exact absurd h (List.not_mem_nil g)) g hgmem
    · rw [List.mem_singleton.1 hgmem]
      exact fun hemp => hg (by rw [hemp]; rfl)

theorem partCount_mono (gs : List (List MCand)) {j k : ℕ} (h : j ≤ k) :
    partCount gs j ≤ partCount gs k := by
  unfold partCount
  obtain ⟨d, rfl⟩ := Nat.exists_eq_add_of_le h
  rw [List.take_add, List.map_append, List.sum_append]
  exact Nat.le_add_right _ _

theorem partCount_succ (gs : List (List MCand)) (k : ℕ) {g : List MCand}
    (hg : gs[k]? = some g) : partCount gs (k + 1) = partCount gs k + g.length := by
  unfold partCount
  rw [List.take_succ, hg]
  simp

theorem partVote_succ (gs : List (List MCand)) (k : ℕ) {g : List MCand}
    (hg : gs[k]? = some g) :
    partVote gs (k + 1) = partVote gs k + (g.map MCand.vote).sum := by
  unfold partVote
  rw [List.take_succ, hg]
  simp

theorem cumCount_part (gs : List (List MCand)) (g : ℕ) :
    cumCount gs g = partCount gs (g + 1) := rfl

theorem cumVote_part (gs : List (List MCand)) (g : ℕ) :
    cumVote gs g = partVote gs (g + 1) := rfl

theorem scanGroups_spec (surplus maxDefeat : ℤ) (gs : List (List MCand)) :
    ∀ (rest : List (List MCand)) (idx : ℕ) (maxg : Option ℕ),
      rest = gs.drop idx →
      (∀ m, maxg = some m → m < idx ∧ viableCut surplus maxDefeat gs m ∧
        ∀ j, j < idx → viableCut surplus maxDefeat gs j → j ≤ m) →
      (maxg = none → ∀ j, j < idx → ¬viableCut surplus maxDefeat gs j) →
      (scanGroups surplus maxDefeat rest (partVote gs idx) (partCount gs idx) idx maxg = none →
        ∀ j, ¬viableCut surplus maxDefeat gs j) ∧
      (∀ m, scanGroups surplus maxDefeat rest (partVote gs idx) (partCount gs idx) idx maxg =
          some m →
        viableCut surplus maxDefeat gs m ∧
          ∀ j, viableCut surplus maxDefeat gs j → j ≤ m) := by
  intro rest
  induction rest with
  | nil =>
    intro idx maxg hdrop hsome hnone
    have hlen : gs.length ≤ idx := by
      have hl := congrArg List.length hdrop
      simp only [List.length_nil, List.length_drop] at hl
      omega
    have hbound : ∀ j, viableCut surplus maxDefeat gs j → j < idx := by
      intro j hj
      have := hj.1
      omega
    simp only [scanGroups]
    constructor
    · intro hres j hj
      exact hnone hres j (hbound j hj) hj
    · intro m hres
      obtain ⟨_, hv, hmax⟩ := hsome m hres
      exact ⟨hv, fun j hj => hmax j (hbound j hj) hj⟩
  | cons g tail ih =>
    intro idx maxg hdrop hsome hnone
    cases tail with
    | nil =>
      have hle : idx ≤ gs.length := by
        by_contra hlt
        push_neg at hlt
        have hnil : gs.drop idx = [] := List.drop_eq_nil_of_le (le_of_lt hlt)
        rw [hnil] at hdrop
        exact (List.cons_ne_nil g []) hdrop
      have hlen : gs.length = idx + 1 := by
        have hl := congrArg List.length hdrop
        simp only [List.length_cons, List.length_nil, List.length_drop] at hl
        omega
      have hbound : ∀ j, viableCut surplus maxDefeat gs j → j < idx := by
        intro j hj
        have := hj.1
        omega
      simp only [scanGroups]
      constructor
      · intro hres j hj
        exact hnone hres j (hbound j hj) hj
      · intro m hres
        obtain ⟨_, hv, hmax⟩ := hsome m hres
        exact ⟨hv, fun j hj => hmax j (hbound j hj) hj⟩
    | cons g2 rest2 =>
      have hg : gs[idx]? = some g := by
        have h0 := List.getElem?_drop gs idx 0
        rw [← hdrop] at h0
        simpa using h0.symm
      have hg2 : gs[idx + 1]? = some g2 := by
        have h1 := List.getElem?_drop gs idx 1
        rw [← hdrop] at h1
        simpa using h1.symm
      have hdrop2 : g2 :: rest2 = gs.drop (idx + 1) := by
        have hd := List.drop_drop 1 idx gs
        rw [← hdrop] at hd
        simpa using hd
      have hlen2 : idx + 1 < gs.length := by
        have hl := congrArg List.length hdrop
        simp only [List.length_cons, List.length_drop] at hl
        omega
      have hcnt := partCount_succ gs idx hg
      have hvt := partVote_succ gs idx hg
      have hgetD : gs.getD (idx + 1) [] = g2 := by
        rw [List.getD_eq_getElem?_getD, hg2]
        rfl
      simp only [scanGroups]
      rw [← hvt, ← hcnt]
      split_ifs with hbreak hcond
      · have hbound : ∀ j, viableCut surplus maxDefeat gs j → j < idx := by
          intro j hj
          by_contra hge
          push_neg at hge
          have hmono : partCount gs (idx + 1) ≤ partCount gs (j + 1) :=
            partCount_mono gs (by omega)
          have hcc := hj.2.1
          rw [cumCount_part] at hcc
          omega
        constructor
        · intro hres j hj
          exact hnone hres j (hbound j hj) hj
        · intro m hres
          obtain ⟨_, hv, hmax⟩ := hsome m hres
          exact ⟨hv, fun j hj => hmax j (hbound j hj) hj⟩
      · have hvidx : viableCut surplus maxDefeat gs idx := by
          refine ⟨hlen2, ?_, ?_⟩
          · rw [cumCount_part]
            omega
          · rw [cumVote_part, hgetD, hvt]
            rw [hvt] at hcond
            exact hcond
        refine ih (idx + 1) (some idx) hdrop2 ?_ ?_
        · intro m hm
          injection hm with hm'
          subst hm'
          exact ⟨Nat.lt_succ_self idx, hvidx, fun j hj _ => by omega⟩
        · intro hm
          exact absurd hm (by simp)
      · have hnidx : ¬viableCut surplus maxDefeat gs idx := by
          intro hv
          have := hv.2.2
          rw [cumVote_part, hgetD] at this
          exact hcond this
        refine ih (idx + 1) maxg hdrop2 ?_ ?_
        · intro m hm
          obtain ⟨hlt, hv, hmax⟩ := hsome m hm
          refine ⟨by omega, hv, ?_⟩
          intro j hj hvj
          rcases Nat.lt_succ_iff_lt_or_eq.1 hj with hj' | rfl
          · exact hmax j hj' hvj
          · exact absurd hvj hnidx
        · intro hm j hj hvj
          rcases Nat.lt_succ_iff_lt_or_eq.1 hj with hj' | rfl
          · exact hnone hm j hj' hvj
          · exact absurd hvj hnidx

theorem voteOrderLe_trans (a b c : MCand) :
    voteOrderLe a b = true → voteOrderLe b c = true → voteOrderLe a c = true := by
  unfold voteOrderLe
  simp only [Bool.or_eq_true, Bool.and_eq_true, decide_eq_true_eq]
  intro hab hbc
  rcases hab with h | ⟨h1, h2⟩ <;> rcases hbc with h' | ⟨h1', h2'⟩
  · exact Or.inl (lt_trans h h')
  · exact Or.inl (by omega)
  · exact Or.inl (by omega)
  · exact Or.inr ⟨by omega, by omega⟩

theorem voteOrderLe_total (a b : MCand) :
    (voteOrderLe a b || voteOrderLe b a) = true := by
  unfold voteOrderLe
  simp only [Bool.or_eq_true, Bool.and_eq_true, decide_eq_true_eq]
  omega

/-! Claim theorems. -/

/-- C2.  For every Meek/Warren round, the quota is votes divided by
seats plus one when the arithmetic is exact and that quotient (floored
at the fixed-point grain) plus epsilon otherwise; a candidate has quota
iff its vote exceeds the quota strictly with exact arithmetic and iff
its vote is at least the quota otherwise. -/
theorem claim_C2 (s votes : ℤ) (votesQ voteQ quotaQ : ℚ) (vote quota : ℤ)
    (nSeats : ℕ) (hs : 0 < s) :
    calcQuotaExact votesQ nSeats = votesQ / ((nSeats : ℚ) + 1) ∧
    calcQuotaFixed s votes nSeats = votes / ((nSeats : ℤ) + 1) + 1 ∧
    (hasQuotaExact voteQ quotaQ ↔ voteQ > quotaQ) ∧
    (hasQuotaRounded vote quota ↔ vote ≥ quota) := by
  refine ⟨rfl, ?_, Iff.rfl, Iff.rfl⟩
  unfold calcQuotaFixed
  rw [divDown_cancel hs votes ((nSeats : ℤ) + 1) (by positivity)]

theorem claim_C2_witness :
    calcQuotaExact 7 1 = (7 : ℚ) / ((1 : ℚ) + 1) ∧
    calcQuotaFixed 10 70 1 = (70 : ℤ) / ((1 : ℤ) + 1) + 1 ∧
    (hasQuotaExact 4 3 ↔ (4 : ℚ) > 3) ∧
    (hasQuotaRounded 3 3 ↔ (3 : ℤ) ≥ 3) :=
  claim_C2 10 70 7 4 3 3 3 1 (by decide)

/-- C5.  In the WIGM counter a hopeful whose vote equals the quota
exactly still has quota (the test is vote at least quota) and goes
pending; and the surplus-transfer step elects the pending candidate with
maximum vote (ties broken by ballot-file order), reweights every ballot
topped at it to mul(weight, surplus, round=down) divided (round=down) by
the candidate vote and then advances it, leaves other ballots untouched,
and sets the candidate vote to the quota — all of this without any
assumption that the surplus is non-zero. -/
theorem claim_C5 (s quota : ℤ) (cands : List WCand) (ballots : List WBallot)
    (hp : wpendingOf cands ≠ []) :
    (∀ v : ℤ, wigmHasQuota v v) ∧
    (∀ c ∈ cands, c.status = WStatus.hopeful → c.vote = quota →
      { c with status := WStatus.pending } ∈ pendWinners quota cands) ∧
    ∃ high : WCand,
      breakTieW ((wpendingOf cands).filter (fun c => decide (c.vote =
          listMaxZ ((wpendingOf cands).map WCand.vote)))) = some high ∧
      high ∈ wpendingOf cands ∧
      (∀ d ∈ wpendingOf cands, d.vote ≤ high.vote) ∧
      (∀ d ∈ wpendingOf cands, d.vote = high.vote → high.order ≤ d.order) ∧
      (∀ c ∈ (transferHigh s quota cands ballots).1, c.cid = high.cid →
        c.status = WStatus.elected ∧ c.vote = quota) ∧
      (transferHigh s quota cands ballots).2 = ballots.map (fun b =>
        if b.topRank = high.cid then
          transferBallot (cands.map (fun c =>
            if c.cid = high.cid then { c with status := WStatus.elected } else c))
            { b with weight := divDown s (mulDown s b.weight (high.vote - quota)) high.vote }
        else b) := by
  refine ⟨fun v => le_refl v, ?_, ?_⟩
  · intro c hc hst hquota
    refine List.mem_map.2 ⟨c, hc, ?_⟩
    rw [if_pos ⟨hst, show wigmHasQuota c.vote quota from by rw [hquota]; exact le_refl quota⟩]
  · have hvne : (wpendingOf cands).map WCand.vote ≠ [] := by
      simpa using hp
    obtain ⟨c0, hc0, hc0v⟩ := List.mem_map.1 (listMaxZ_mem hvne)
    have hc0f : c0 ∈ (wpendingOf cands).filter (fun c => decide (c.vote =
        listMaxZ ((wpendingOf cands).map WCand.vote))) := by
      refine List.mem_filter.2 ⟨hc0, ?_⟩
      simp [hc0v]
    rcases hbt : byTieOrderW ((wpendingOf cands).filter (fun c => decide (c.vote =
        listMaxZ ((wpendingOf cands).map WCand.vote)))) with _ | ⟨high, rest⟩
    · exfalso
      have hperm := List.mergeSort_perm ((wpendingOf cands).filter (fun c => decide (c.vote =
        listMaxZ ((wpendingOf cands).map WCand.vote)))) (fun a b => decide (a.order ≤ b.order))
      rw [show ((wpendingOf cands).filter (fun c => decide (c.vote =
          listMaxZ ((wpendingOf cands).map WCand.vote)))).mergeSort
          (fun a b => decide (a.order ≤ b.order)) = byTieOrderW _ from rfl, hbt] at hperm
      exact List.ne_nil_of_mem hc0f hperm.nil_eq.symm
    · have hhead : (byTieOrderW ((wpendingOf cands).filter (fun c => decide (c.vote =
          listMaxZ ((wpendingOf cands).map WCand.vote))))).head? = some high := by
        rw [hbt]
        rfl
      obtain ⟨hmem, hmin⟩ := byTieOrderW_head_min hhead
      have hhp : high ∈ wpendingOf cands := (List.mem_filter.1 hmem).1
      have hhv : high.vote = listMaxZ ((wpendingOf cands).map WCand.vote) := by
        have := (List.mem_filter.1 hmem).2
        simpa using this
      have hfold := transferFold_spec s (high.vote - quota) high.vote high.cid
        (cands.map (fun c =>
          if c.cid = high.cid then { c with status := WStatus.elected } else c))
        ballots
        (cands.map (fun c =>
          if c.cid = high.cid then { c with status := WStatus.elected } else c))
        [] (fun x => rfl)
        (by
          intro c hc hcc
          rcases List.mem_map.1 hc with ⟨c1, _, rfl⟩
          by_cases h1 : c1.cid = high.cid
          · rw [if_pos h1]
          · rw [if_neg h1] at hcc ⊢
            exact absurd hcc h1)
      obtain ⟨hf1, hf2⟩ := hfold
      have htrans : transferHigh s quota cands ballots =
          (((ballots.foldl (transferStep s (high.vote - quota) high.vote high.cid)
              (cands.map (fun c =>
                if c.cid = high.cid then { c with status := WStatus.elected } else c),
               [])).1).map (fun c =>
                if c.cid = high.cid then { c with vote := quota } else c),
           (ballots.foldl (transferStep s (high.vote - quota) high.vote high.cid)
              (cands.map (fun c =>
                if c.cid = high.cid then { c with status := WStatus.elected } else c),
               [])).2) := by
        simp only [transferHigh, wpendingOf] at hbt ⊢
        rw [show breakTieW ((cands.filter (fun c => decide (c.status = WStatus.pending))).filter
            (fun c => decide (c.vote = listMaxZ ((cands.filter
              (fun c => decide (c.status = WStatus.pending))).map WCand.vote)))) = some high
          from by rw [breakTieW, hbt]; rfl]
      refine ⟨high, ?_, hhp, ?_, ?_, ?_, ?_⟩
      · rw [breakTieW, hbt]
        rfl
      · intro d hd
        rw [hhv]
        exact listMaxZ_ge (List.mem_map_of_mem WCand.vote hd)
      · intro d hd hdv
        refine hmin d (List.mem_filter.2 ⟨hd, ?_⟩)
        rw [hdv, hhv]
        simp
      · intro c hc hcc
        rw [htrans] at hc
        rcases List.mem_map.1 hc with ⟨c1, hc1, rfl⟩
        by_cases h1 : c1.cid = high.cid
        · rw [if_pos h1]
          exact ⟨hf2 c1 hc1 h1, rfl⟩
        · rw [if_neg h1] at hcc ⊢
          exact absurd hcc h1
      · rw [htrans]
        simpa using hf1

theorem claim_C5_witness :
    (∀ v : ℤ, wigmHasQuota v v) ∧
    (∀ c ∈ [(⟨1, 1, WStatus.pending, 20⟩ : WCand), ⟨2, 2, WStatus.hopeful, 5⟩],
      c.status = WStatus.hopeful → c.vote = 20 →
      { c with status := WStatus.pending } ∈
        pendWinners 20 [⟨1, 1, WStatus.pending, 20⟩, ⟨2, 2, WStatus.hopeful, 5⟩]) ∧
    ∃ high : WCand,
      breakTieW ((wpendingOf [(⟨1, 1, WStatus.pending, 20⟩ : WCand),
          ⟨2, 2, WStatus.hopeful, 5⟩]).filter (fun c => decide (c.vote =
          listMaxZ ((wpendingOf [(⟨1, 1, WStatus.pending, 20⟩ : WCand),
            ⟨2, 2, WStatus.hopeful, 5⟩]).map WCand.vote)))) = some high ∧
      high ∈ wpendingOf [(⟨1, 1, WStatus.pending, 20⟩ : WCand), ⟨2, 2, WStatus.hopeful, 5⟩] ∧
      (∀ d ∈ wpendingOf [(⟨1, 1, WStatus.pending, 20⟩ : WCand), ⟨2, 2, WStatus.hopeful, 5⟩],
        d.vote ≤ high.vote) ∧
      (∀ d ∈ wpendingOf [(⟨1, 1, WStatus.pending, 20⟩ : WCand), ⟨2, 2, WStatus.hopeful, 5⟩],
        d.vote = high.vote → high.order ≤ d.order) ∧
      (∀ c ∈ (transferHigh 10 20 [⟨1, 1, WStatus.pending, 20⟩, ⟨2, 2, WStatus.hopeful, 5⟩]
          [⟨1, [1, 2], 0, 10⟩]).1, c.cid = high.cid →
        c.status = WStatus.elected ∧ c.vote = 20) ∧
      (transferHigh 10 20 [⟨1, 1, WStatus.pending, 20⟩, ⟨2, 2, WStatus.hopeful, 5⟩]
          [⟨1, [1, 2], 0, 10⟩]).2 = [(⟨1, [1, 2], 0, 10⟩ : WBallot)].map (fun b =>
        if b.topRank = high.cid then
          transferBallot ([(⟨1, 1, WStatus.pending, 20⟩ : WCand),
              ⟨2, 2, WStatus.hopeful, 5⟩].map (fun c =>
            if c.cid = high.cid then { c with status := WStatus.elected } else c))
            { b with weight := divDown 10 (mulDown 10 b.weight (high.vote - 20)) high.vote }
        else b) :=
  claim_C5 10 20 [⟨1, 1, WStatus.pending, 20⟩, ⟨2, 2, WStatus.hopeful, 5⟩]
    [⟨1, [1, 2], 0, 10⟩] (by decide)

/-- C6 counterexample.  At fixed-point scale 10000 (precision 4), an
elected candidate with keep factor 0.3333 whose vote 2.5 equals the
quota exactly satisfies every side condition of the claim (keep factor
within V0 and V1, quota at most vote), yet the rounded-up update of
droop/rules/meek.py line 316 RAISES the keep factor to 0.3334, so the
keep factor is not non-increasing while the candidate stays elected. -/
theorem claim_C6_counterexample :
    (0 : ℤ) ≤ 3333 ∧ (3333 : ℤ) ≤ 10000 ∧ (25000 : ℤ) ≤ 25000 ∧
      updateKF 10000 3333 25000 25000 = 3334 ∧
      ¬updateKF 10000 3333 25000 25000 ≤ 3333 := by decide

/-- C6 amended.  Keep factors stay within V0 and V1 at every update with
quota at most vote; with exact arithmetic the update never increases the
keep factor when quota is at most vote; with fixed-point arithmetic the
up-rounded update never increases the keep factor provided the rounding
gap fits, namely kf times (vote minus quota) is at least s - 1 (the
counterexample shows the bound can fail when vote equals quota); and the
initialized keep factors are within V0 and V1. -/
theorem claim_C6 :
    (∀ kf q v : ℚ, 0 ≤ kf → 0 ≤ q → q ≤ v → 0 < v →
      0 ≤ updateKFExact kf q v ∧ updateKFExact kf q v ≤ kf) ∧
    (∀ s kf q v : ℤ, 0 < s → 0 ≤ kf → kf ≤ s → 0 ≤ q → q ≤ v → 0 < v →
      0 ≤ updateKF s kf q v ∧ updateKF s kf q v ≤ s) ∧
    (∀ s kf q v : ℤ, 0 < s → 0 ≤ kf → 0 ≤ q → 0 < v → s - 1 ≤ kf * (v - q) →
      updateKF s kf q v ≤ kf) ∧
    (∀ s : ℤ, 0 ≤ s → ∀ profile : List (ℕ × ℕ × Bool), ∀ c ∈ meekInit s profile,
      0 ≤ c.kf ∧ c.kf ≤ s) := by
  refine ⟨fun kf q v hkf hq hqv hv => ⟨?_, ?_⟩,
    fun s kf q v hs hkf0 hkf hq hqv hv =>
      ⟨updateKF_nonneg hs hkf0 hq hv, updateKF_le_one hs hkf0 hkf hq hqv hv⟩,
    fun s kf q v hs hkf hq hv hgap => updateKF_le_kf hs hkf hq hv hgap,
    fun s hs profile c hc => ?_⟩
  · unfold updateKFExact
    positivity
  · unfold updateKFExact
    calc kf * q / v ≤ kf * v / v := by gcongr
      _ = kf := mul_div_cancel_right₀ kf hv.ne.symm
  · rcases List.mem_map.1 hc with ⟨p, _, rfl⟩
    by_cases hw : p.2.2
    · simp only [meekInit, if_pos hw]
      exact ⟨le_refl 0, hs⟩
    · simp only [meekInit, if_neg hw]
      exact ⟨hs, le_refl s⟩

theorem claim_C6_witness :
    (0 ≤ updateKFExact (1 / 2) 2 4 ∧ updateKFExact (1 / 2) 2 4 ≤ 1 / 2) ∧
    (0 ≤ updateKF 100 50 200 400 ∧ updateKF 100 50 200 400 ≤ 100) ∧
    updateKF 100 50 200 400 ≤ 50 ∧
    (0 ≤ (⟨1, 1, MStatus.hopeful, 0, 100⟩ : MCand).kf ∧
      (⟨1, 1, MStatus.hopeful, 0, 100⟩ : MCand).kf ≤ 100) :=
  ⟨claim_C6.1 (1 / 2) 2 4 (by norm_num) (by norm_num) (by norm_num) (by norm_num),
   claim_C6.2.1 100 50 200 400 (by decide) (by decide) (by decide) (by decide)
     (by decide) (by decide),
   claim_C6.2.2.1 100 50 200 400 (by decide) (by decide) (by decide) (by decide)
     (by decide),
   claim_C6.2.2.2 100 (by decide) [(1, 1, false)]
     ⟨1, 1, MStatus.hopeful, 0, 100⟩ (by decide)⟩

/-- C7.  After each Meek distribution pass, the votes gained by the live
candidates plus the round residual account for every ballot exactly: with
exact arithmetic the sum of live votes plus residual equals the ballot
count N, and with fixed-point arithmetic the same equality holds at the
unit scale, so the deviation is zero and in particular within the
claimed bound of ballots times epsilon.  A is the set of live candidate
ids; every other candidate has keep factor zero (defeat and withdrawal
zero the keep factor). -/
theorem claim_C7 (s : ℤ) (kf : ℕ → ℤ) (kfq : ℕ → ℚ) (ballots : List MBallot)
    (A : Finset ℕ) (hz : ∀ c, c ∉ A → kf c = 0) (hzq : ∀ c, c ∉ A → kfq c = 0) :
    (∑ a ∈ A, (meekPassExact kfq ballots).1 a) + (meekPassExact kfq ballots).2 =
        ((ballots.map MBallot.mult).sum : ℚ) ∧
    (∑ a ∈ A, (meekPassFixed s kf ballots).1 a) + (meekPassFixed s kf ballots).2 =
        ((ballots.map MBallot.mult).sum : ℤ) * s ∧
    |(∑ a ∈ A, (meekPassFixed s kf ballots).1 a) + (meekPassFixed s kf ballots).2 -
        ((ballots.map MBallot.mult).sum : ℤ) * s| ≤ (ballots.length : ℤ) * 1 := by
  have hAq : ∀ c, c ∉ A → ∀ x : ℚ, x * kfq c = 0 := by
    intro c hc x
    rw [hzq c hc, mul_zero]
  have hAz : ∀ c, c ∉ A → ∀ x : ℤ, mulDown s x (kf c) = 0 := by
    intro c hc x
    rw [hz c hc]
    unfold mulDown
    rw [mul_zero, Int.zero_fdiv]
  have hq := meekDistribute_sum (fun a k => a * k) (fun w k => w * (1 - k)) kfq
    (1 : ℚ) A hAq ballots (fun _ => 0) 0
  have hzc := meekDistribute_sum (fun a k => mulDown s a k)
    (fun w k => mulDown s w (s - k)) kf s A hAz ballots (fun _ => 0) 0
  refine ⟨?_, ?_, ?_⟩
  · unfold meekPassExact meekPassVotes
    rw [hq]
    simp [nsmul_eq_mul]
  · unfold meekPassFixed meekPassVotes
    rw [hzc]
    simp [nsmul_eq_mul]
  · have h2 : (∑ a ∈ A, (meekPassFixed s kf ballots).1 a) + (meekPassFixed s kf ballots).2 =
        ((ballots.map MBallot.mult).sum : ℤ) * s := by
      unfold meekPassFixed meekPassVotes
      rw [hzc]
      simp [nsmul_eq_mul]
    rw [h2, sub_self, abs_zero]
    positivity

theorem claim_C7_witness :
    (∑ a ∈ ({1, 2} : Finset ℕ),
        (meekPassExact (fun c => if c = 1 then 1 / 2 else if c = 2 then 1 else 0)
          [⟨3, [1, 2]⟩]).1 a) +
        (meekPassExact (fun c => if c = 1 then 1 / 2 else if c = 2 then 1 else 0)
          [⟨3, [1, 2]⟩]).2 =
      (([(⟨3, [1, 2]⟩ : MBallot)].map MBallot.mult).sum : ℚ) :=
  (claim_C7 100 (fun c => if c = 1 then 50 else if c = 2 then 100 else 0)
    (fun c => if c = 1 then 1 / 2 else if c = 2 then 1 else 0)
    [⟨3, [1, 2]⟩] {1, 2}
    (by
      intro c hc
      simp only [Finset.mem_insert, Finset.mem_singleton] at hc
      push_neg at hc
      simp [hc.1, hc.2])
    (by
      intro c hc
      simp only [Finset.mem_insert, Finset.mem_singleton] at hc
      push_neg at hc
      simp [hc.1, hc.2])).1

/-- C3.  batchDefeat (shared by the Meek and the WIGM counter): the
hopefuls sorted ascending by vote are partitioned into non-empty groups
by the surplus walk (the group list flattens back to the sorted list);
the result is the union of groups up to the LARGEST viable cut and empty
when no viable cut exists; it never contains a member of the final
group; and its size never exceeds the hopeful count minus the seats left
to fill. -/
theorem claim_C3 (surplus : ℤ) (hopeful : List MCand) (seatsLeft : ℤ)
    (hnd : hopeful.Nodup) :
    (sortedGroups surplus (sortByVote hopeful)).flatten = sortByVote hopeful ∧
    (sortByVote hopeful).Perm hopeful ∧
    List.Pairwise (fun a b : MCand => a.vote ≤ b.vote) (sortByVote hopeful) ∧
    (∀ g ∈ sortedGroups surplus (sortByVote hopeful), g ≠ []) ∧
    ((∃ m, viableCut surplus ((hopeful.length : ℤ) - seatsLeft)
          (sortedGroups surplus (sortByVote hopeful)) m ∧
        (∀ j, viableCut surplus ((hopeful.length : ℤ) - seatsLeft)
          (sortedGroups surplus (sortByVote hopeful)) j → j ≤ m) ∧
        batchDefeat surplus hopeful seatsLeft =
          ((sortedGroups surplus (sortByVote hopeful)).take (m + 1)).flatten) ∨
      ((∀ j, ¬viableCut surplus ((hopeful.length : ℤ) - seatsLeft)
          (sortedGroups surplus (sortByVote hopeful)) j) ∧
        batchDefeat surplus hopeful seatsLeft = [])) ∧
    (∀ c ∈ (sortedGroups surplus (sortByVote hopeful)).getLastD [],
      c ∉ batchDefeat surplus hopeful seatsLeft) ∧
    (seatsLeft ≤ (hopeful.length : ℤ) →
      ((batchDefeat surplus hopeful seatsLeft).length : ℤ) ≤
        (hopeful.length : ℤ) - seatsLeft) := by
  have hperm : (sortByVote hopeful).Perm hopeful := List.mergeSort_perm hopeful voteOrderLe
  have hflat := sortedGroups_flatten surplus (sortByVote hopeful)
  have hsortnd : (sortByVote hopeful).Nodup := hperm.nodup_iff.2 hnd
  have hpair : List.Pairwise (fun a b : MCand => a.vote ≤ b.vote) (sortByVote hopeful) := by
    refine (List.sorted_mergeSort voteOrderLe_trans voteOrderLe_total hopeful).imp ?_
    intro a b hab
    unfold voteOrderLe at hab
    simp only [Bool.or_eq_true, Bool.and_eq_true, decide_eq_true_eq] at hab
    rcases hab with h | ⟨h1, _⟩
    · exact le_of_lt h
    · exact le_of_eq h1
  obtain ⟨hs_none, hs_some⟩ := scanGroups_spec surplus ((hopeful.length : ℤ) - seatsLeft)
    (sortedGroups surplus (sortByVote hopeful))
    (sortedGroups surplus (sortByVote hopeful)) 0 none
    (List.drop_zero _).symm
    (fun m hm => absurd hm (by simp))
    (fun _ j hj _ => absurd hj (Nat.not_lt_zero j))
  rw [show partVote (sortedGroups surplus (sortByVote hopeful)) 0 = 0 from rfl,
    show partCount (sortedGroups surplus (sortByVote hopeful)) 0 = 0 from rfl]
    at hs_none hs_some
  refine ⟨hflat, hperm, hpair, sortedGroups_ne surplus (sortByVote hopeful), ?_, ?_, ?_⟩
  · rcases hscan : scanGroups surplus ((hopeful.length : ℤ) - seatsLeft)
        (sortedGroups surplus (sortByVote hopeful)) 0 0 0 none with _ | m
    · refine Or.inr ⟨hs_none hscan, ?_⟩
      simp only [batchDefeat]
      rw [hscan]
    · obtain ⟨hv, hmax⟩ := hs_some m hscan
      refine Or.inl ⟨m, hv, hmax, ?_⟩
      simp only [batchDefeat]
      rw [hscan]
  · intro c hcLast hcBatch
    rcases hscan : scanGroups surplus ((hopeful.length : ℤ) - seatsLeft)
        (sortedGroups surplus (sortByVote hopeful)) 0 0 0 none with _ | m
    · have hB : batchDefeat surplus hopeful seatsLeft = [] := by
        simp only [batchDefeat]
        rw [hscan]
      rw [hB] at hcBatch
      exact absurd hcBatch (List.not_mem_nil c)
    · obtain ⟨hv, _⟩ := hs_some m hscan
      have hm1 : m + 1 < (sortedGroups surplus (sortByVote hopeful)).length := hv.1
      have hB : batchDefeat surplus hopeful seatsLeft =
          ((sortedGroups surplus (sortByVote hopeful)).take (m + 1)).flatten := by
        simp only [batchDefeat]
        rw [hscan]
      have hndflat : (sortedGroups surplus (sortByVote hopeful)).flatten.Nodup := by
        rw [hflat]
        exact hsortnd
      have hndsplit : (((sortedGroups surplus (sortByVote hopeful)).take (m + 1)).flatten ++
          ((sortedGroups surplus (sortByVote hopeful)).drop (m + 1)).flatten).Nodup := by
        rw [← List.flatten_append, List.take_append_drop]
        exact hndflat
      have hdisj := (List.nodup_append.1 hndsplit).2.2
      have hidx : (sortedGroups surplus (sortByVote hopeful)).length - 1 <
          (sortedGroups surplus (sortByVote hopeful)).length := by omega
      have hglast : (sortedGroups surplus (sortByVote hopeful)).getLastD [] =
          (sortedGroups surplus (sortByVote hopeful))[(sortedGroups surplus
            (sortByVote hopeful)).length - 1] := by
        rw [List.getLastD_eq_getLast?, List.getLast?_eq_getElem?,
          List.getElem?_eq_getElem hidx]
        rfl
      have hlastmem : (sortedGroups surplus (sortByVote hopeful)).getLastD [] ∈
          (sortedGroups surplus (sortByVote hopeful)).drop (m + 1) := by
        have hidq := List.getElem?_drop (sortedGroups surplus (sortByVote hopeful)) (m + 1)
          ((sortedGroups surplus (sortByVote hopeful)).length - 1 - (m + 1))
        rw [show (m + 1) + ((sortedGroups surplus (sortByVote hopeful)).length - 1 - (m + 1))
            = (sortedGroups surplus (sortByVote hopeful)).length - 1 from by omega,
          List.getElem?_eq_getElem hidx] at hidq
        rw [hglast]
        exact List.getElem?_mem hidq
      have hcdrop : c ∈ ((sortedGroups surplus (sortByVote hopeful)).drop (m + 1)).flatten :=
        List.mem_flatten.2 ⟨(sortedGroups surplus (sortByVote hopeful)).getLastD [],
          hlastmem, hcLast⟩
      rw [hB] at hcBatch
      exact (List.disjoint_right.1 hdisj) hcdrop hcBatch
  · intro hseats
    rcases hscan : scanGroups surplus ((hopeful.length : ℤ) - seatsLeft)
        (sortedGroups surplus (sortByVote hopeful)) 0 0 0 none with _ | m
    · have hB : batchDefeat surplus hopeful seatsLeft = [] := by
        simp only [batchDefeat]
        rw [hscan]
      rw [hB]
      simp
      omega
    · obtain ⟨hv, _⟩ := hs_some m hscan
      have hB : batchDefeat surplus hopeful seatsLeft =
          ((sortedGroups surplus (sortByVote hopeful)).take (m + 1)).flatten := by
        simp only [batchDefeat]
        rw [hscan]
      have hcc := hv.2.1
      rw [hB, List.length_flatten]
      exact hcc

theorem claim_C3_witness :
    (sortedGroups 1 (sortByVote [⟨4, 4, MStatus.hopeful, 10, 0⟩, ⟨1, 1, MStatus.hopeful, 1, 0⟩,
        ⟨3, 3, MStatus.hopeful, 5, 0⟩, ⟨2, 2, MStatus.hopeful, 1, 0⟩])).flatten =
      sortByVote [⟨4, 4, MStatus.hopeful, 10, 0⟩, ⟨1, 1, MStatus.hopeful, 1, 0⟩,
        ⟨3, 3, MStatus.hopeful, 5, 0⟩, ⟨2, 2, MStatus.hopeful, 1, 0⟩] ∧
    (sortByVote [⟨4, 4, MStatus.hopeful, 10, 0⟩, ⟨1, 1, MStatus.hopeful, 1, 0⟩,
        ⟨3, 3, MStatus.hopeful, 5, 0⟩, ⟨2, 2, MStatus.hopeful, 1, 0⟩]).Perm
      [⟨4, 4, MStatus.hopeful, 10, 0⟩, ⟨1, 1, MStatus.hopeful, 1, 0⟩,
        ⟨3, 3, MStatus.hopeful, 5, 0⟩, ⟨2, 2, MStatus.hopeful, 1, 0⟩] ∧
    List.Pairwise (fun a b : MCand => a.vote ≤ b.vote)
      (sortByVote [⟨4, 4, MStatus.hopeful, 10, 0⟩, ⟨1, 1, MStatus.hopeful, 1, 0⟩,
        ⟨3, 3, MStatus.hopeful, 5, 0⟩, ⟨2, 2, MStatus.hopeful, 1, 0⟩]) ∧
    (∀ g ∈ sortedGroups 1 (sortByVote [⟨4, 4, MStatus.hopeful, 10, 0⟩,
        ⟨1, 1, MStatus.hopeful, 1, 0⟩, ⟨3, 3, MStatus.hopeful, 5, 0⟩,
        ⟨2, 2, MStatus.hopeful, 1, 0⟩]), g ≠ []) ∧
    ((∃ m, viableCut 1 (((4 : ℕ) : ℤ) - 2) (sortedGroups 1
          (sortByVote [⟨4, 4, MStatus.hopeful, 10, 0⟩, ⟨1, 1, MStatus.hopeful, 1, 0⟩,
            ⟨3, 3, MStatus.hopeful, 5, 0⟩, ⟨2, 2, MStatus.hopeful, 1, 0⟩])) m ∧
        (∀ j, viableCut 1 (((4 : ℕ) : ℤ) - 2) (sortedGroups 1
          (sortByVote [⟨4, 4, MStatus.hopeful, 10, 0⟩, ⟨1, 1, MStatus.hopeful, 1, 0⟩,
            ⟨3, 3, MStatus.hopeful, 5, 0⟩, ⟨2, 2, MStatus.hopeful, 1, 0⟩])) j → j ≤ m) ∧
        batchDefeat 1 [⟨4, 4, MStatus.hopeful, 10, 0⟩, ⟨1, 1, MStatus.hopeful, 1, 0⟩,
            ⟨3, 3, MStatus.hopeful, 5, 0⟩, ⟨2, 2, MStatus.hopeful, 1, 0⟩] 2 =
          ((sortedGroups 1 (sortByVote [⟨4, 4, MStatus.hopeful, 10, 0⟩,
            ⟨1, 1, MStatus.hopeful, 1, 0⟩, ⟨3, 3, MStatus.hopeful, 5, 0⟩,
            ⟨2, 2, MStatus.hopeful, 1, 0⟩])).take (m + 1)).flatten) ∨
      ((∀ j, ¬viableCut 1 (((4 : ℕ) : ℤ) - 2) (sortedGroups 1
          (sortByVote [⟨4, 4, MStatus.hopeful, 10, 0⟩, ⟨1, 1, MStatus.hopeful, 1, 0⟩,
            ⟨3, 3, MStatus.hopeful, 5, 0⟩, ⟨2, 2, MStatus.hopeful, 1, 0⟩])) j) ∧
        batchDefeat 1 [⟨4, 4, MStatus.hopeful, 10, 0⟩, ⟨1, 1, MStatus.hopeful, 1, 0⟩,
          ⟨3, 3, MStatus.hopeful, 5, 0⟩, ⟨2, 2, MStatus.hopeful, 1, 0⟩] 2 = [])) ∧
    (∀ c ∈ (sortedGroups 1 (sortByVote [⟨4, 4, MStatus.hopeful, 10, 0⟩,
        ⟨1, 1, MStatus.hopeful, 1, 0⟩, ⟨3, 3, MStatus.hopeful, 5, 0⟩,
        ⟨2, 2, MStatus.hopeful, 1, 0⟩])).getLastD [],
      c ∉ batchDefeat 1 [⟨4, 4, MStatus.hopeful, 10, 0⟩, ⟨1, 1, MStatus.hopeful, 1, 0⟩,
        ⟨3, 3, MStatus.hopeful, 5, 0⟩, ⟨2, 2, MStatus.hopeful, 1, 0⟩] 2) ∧
    ((2 : ℤ) ≤ ((4 : ℕ) : ℤ) →
      ((batchDefeat 1 [⟨4, 4, MStatus.hopeful, 10, 0⟩, ⟨1, 1, MStatus.hopeful, 1, 0⟩,
        ⟨3, 3, MStatus.hopeful, 5, 0⟩, ⟨2, 2, MStatus.hopeful, 1, 0⟩] 2).length : ℤ) ≤
        ((4 : ℕ) : ℤ) - 2) := by
  have h := claim_C3 1 [⟨4, 4, MStatus.hopeful, 10, 0⟩, ⟨1, 1, MStatus.hopeful, 1, 0⟩,
    ⟨3, 3, MStatus.hopeful, 5, 0⟩, ⟨2, 2, MStatus.hopeful, 1, 0⟩] 2 (by decide)
  simpa using h

/-- C4.  When a Meek/Warren iteration ends with status Omega or Stable,
the defeat step of droop/rules/meek.py lines 383-397 runs: the defeated
candidate is a hopeful within the surplus of the lowest hopeful vote and
has the smallest ballot-file order among those; in particular any
equal-vote rival has a larger or equal ballot-file order; and in the
resulting state the defeated candidate has status defeated with keep
factor and vote both V0. -/
theorem claim_C4 (surplus : ℤ) (cands : List MCand)
    (hne : hopefulOf cands ≠ []) (hsur : 0 ≤ surplus) :
    ∃ t : MCand, lowDefeatChoice surplus cands = some t ∧
      t ∈ hopefulOf cands ∧
      t.vote ≤ listMinZ ((hopefulOf cands).map MCand.vote) + surplus ∧
      (∀ d ∈ hopefulOf cands,
        d.vote ≤ listMinZ ((hopefulOf cands).map MCand.vote) + surplus →
          t.order ≤ d.order) ∧
      (∀ d ∈ hopefulOf cands, d.vote = t.vote → t.order ≤ d.order) ∧
      (∀ c ∈ lowDefeat surplus cands, c.cid = t.cid →
        c.status = .defeated ∧ c.kf = 0 ∧ c.vote = 0) := by
  have hmapne : (hopefulOf cands).map MCand.vote ≠ [] := by
    simpa using hne
  obtain ⟨c0, hc0, hc0v⟩ := List.mem_map.1 (listMinZ_mem hmapne)
  have hc0low : c0 ∈ (hopefulOf cands).filter
      (fun c => decide (listMinZ ((hopefulOf cands).map MCand.vote) + surplus ≥ c.vote)) := by
    refine List.mem_filter.2 ⟨hc0, ?_⟩
    simp only [decide_eq_true_eq, ge_iff_le]
    omega
  have hlne : (hopefulOf cands).filter
      (fun c => decide (listMinZ ((hopefulOf cands).map MCand.vote) + surplus ≥ c.vote)) ≠ [] :=
    List.ne_nil_of_mem hc0low
  rcases hsort : sortByOrder ((hopefulOf cands).filter
      (fun c => decide (listMinZ ((hopefulOf cands).map MCand.vote) + surplus ≥ c.vote)))
    with _ | ⟨t, rest⟩
  · exfalso
    have hperm := List.mergeSort_perm ((hopefulOf cands).filter
      (fun c => decide (listMinZ ((hopefulOf cands).map MCand.vote) + surplus ≥ c.vote)))
      (fun a b => decide (a.order ≤ b.order))
    rw [show ((hopefulOf cands).filter
        (fun c => decide (listMinZ ((hopefulOf cands).map MCand.vote) + surplus ≥ c.vote))).mergeSort
        (fun a b => decide (a.order ≤ b.order)) = sortByOrder _ from rfl, hsort] at hperm
    exact hlne hperm.nil_eq.symm
  · have hhead : (sortByOrder ((hopefulOf cands).filter
        (fun c => decide (listMinZ ((hopefulOf cands).map MCand.vote) + surplus ≥ c.vote)))).head?
        = some t := by
      rw [hsort]
      rfl
    obtain ⟨htmem, htmin⟩ := sortByOrder_head_min hhead
    have htlow := (List.mem_filter.1 htmem).2
    simp only [decide_eq_true_eq, ge_iff_le] at htlow
    have hts : t ∈ hopefulOf cands := (List.mem_filter.1 htmem).1
    have hchoice : lowDefeatChoice surplus cands = some t := by
      simp only [lowDefeatChoice, breakTie]
      exact hhead
    refine ⟨t, hchoice, hts, htlow, ?_, ?_, ?_⟩
    · intro d hd hdv
      refine htmin d (List.mem_filter.2 ⟨hd, ?_⟩)
      simp only [decide_eq_true_eq, ge_iff_le]
      omega
    · intro d hd hdv
      refine htmin d (List.mem_filter.2 ⟨hd, ?_⟩)
      simp only [decide_eq_true_eq, ge_iff_le]
      omega
    · intro c hc hcid
      have hld : lowDefeat surplus cands = cands.map (fun c =>
          if c.cid = t.cid then { c with status := .defeated, kf := 0, vote := 0 } else c) := by
        simp only [lowDefeat, breakTie]
        rw [hsort]
        rfl
      rw [hld] at hc
      rcases List.mem_map.1 hc with ⟨c1, _, rfl⟩
      by_cases h1 : c1.cid = t.cid
      · simp only [if_pos h1]
        exact ⟨trivial, trivial, trivial⟩
      · exfalso
        rw [if_neg h1] at hcid
        exact h1 hcid

theorem claim_C4_witness :
    ∃ t : MCand, lowDefeatChoice 0
        [⟨1, 2, MStatus.hopeful, 5, 10⟩, ⟨2, 1, MStatus.hopeful, 5, 10⟩] = some t ∧
      t ∈ hopefulOf [⟨1, 2, MStatus.hopeful, 5, 10⟩, ⟨2, 1, MStatus.hopeful, 5, 10⟩] ∧
      t.vote ≤ listMinZ ((hopefulOf [⟨1, 2, MStatus.hopeful, 5, 10⟩,
          ⟨2, 1, MStatus.hopeful, 5, 10⟩]).map MCand.vote) + 0 ∧
      (∀ d ∈ hopefulOf [⟨1, 2, MStatus.hopeful, 5, 10⟩, ⟨2, 1, MStatus.hopeful, 5, 10⟩],
        d.vote ≤ listMinZ ((hopefulOf [⟨1, 2, MStatus.hopeful, 5, 10⟩,
          ⟨2, 1, MStatus.hopeful, 5, 10⟩]).map MCand.vote) + 0 → t.order ≤ d.order) ∧
      (∀ d ∈ hopefulOf [⟨1, 2, MStatus.hopeful, 5, 10⟩, ⟨2, 1, MStatus.hopeful, 5, 10⟩],
        d.vote = t.vote → t.order ≤ d.order) ∧
      (∀ c ∈ lowDefeat 0 [⟨1, 2, MStatus.hopeful, 5, 10⟩, ⟨2, 1, MStatus.hopeful, 5, 10⟩],
        c.cid = t.cid → c.status = .defeated ∧ c.kf = 0 ∧ c.vote = 0) :=
  claim_C4 0 [⟨1, 2, MStatus.hopeful, 5, 10⟩, ⟨2, 1, MStatus.hopeful, 5, 10⟩]
    (by decide) (by decide)

/-- C8.  Every count terminates: the Meek/Warren round loop runs until
countComplete (hopefuls at most the seats left to fill, or no seats left)
and, since every round elects or defeats at least one hopeful, runs at
most as many rounds as there are hopeful candidates; the WIGM round loop
runs while hopefuls exceed the positive seats left and, since every
round pends, defeats or transfers, runs at most twice the hopefuls plus
the pending candidates many rounds.  Both bounds are linear in the
number of candidates. -/
theorem claim_C8 :
    (∀ (nSeats : ℕ) (os : List MRoundOut) (t : MTally),
      validForMeekLoop nSeats t os → t.h ≤ os.length →
      countComplete nSeats (meekLoop nSeats os t).2.h (meekLoop nSeats os t).2.e ∧
        (meekLoop nSeats os t).1 ≤ t.h) ∧
    (∀ (nSeats : ℕ) (rs : List WRound) (t : WTally),
      validForWigmLoop nSeats t rs → 2 * t.h + t.p ≤ rs.length →
      ¬wigmLoopGoes nSeats (wigmLoop nSeats rs t).2 ∧
        (wigmLoop nSeats rs t).1 ≤ 2 * t.h + t.p) :=
  ⟨fun nSeats os t => meekLoop_terminates nSeats os t,
   fun nSeats rs t => wigmLoop_terminates nSeats rs t⟩

theorem claim_C8_witness :
    (countComplete 1 (meekLoop 1 [.singleDefeat, .singleDefeat] ⟨2, 0⟩).2.h
        (meekLoop 1 [.singleDefeat, .singleDefeat] ⟨2, 0⟩).2.e ∧
      (meekLoop 1 [.singleDefeat, .singleDefeat] ⟨2, 0⟩).1 ≤ (⟨2, 0⟩ : MTally).h) ∧
    (¬wigmLoopGoes 1 (wigmLoop 1
        [⟨0, .defeatLow⟩, ⟨0, .defeatLow⟩, ⟨0, .defeatLow⟩, ⟨0, .defeatLow⟩] ⟨2, 0, 0⟩).2 ∧
      (wigmLoop 1
        [⟨0, .defeatLow⟩, ⟨0, .defeatLow⟩, ⟨0, .defeatLow⟩, ⟨0, .defeatLow⟩] ⟨2, 0, 0⟩).1 ≤
          2 * (⟨2, 0, 0⟩ : WTally).h + (⟨2, 0, 0⟩ : WTally).p) := by
  constructor
  · refine claim_C8.1 1 [.singleDefeat, .singleDefeat] ⟨2, 0⟩ ?_ (by decide)
    refine Or.inr ⟨?_, Or.inl ?_⟩
    · show (1 : ℕ) ≤ 2
      decide
    · decide
  · refine claim_C8.2 1 [⟨0, .defeatLow⟩, ⟨0, .defeatLow⟩, ⟨0, .defeatLow⟩, ⟨0, .defeatLow⟩]
      ⟨2, 0, 0⟩ ?_ (by decide)
    refine Or.inr ⟨⟨?_, ?_⟩, Or.inl ?_⟩
    · show (0 : ℕ) ≤ 2
      decide
    · show (1 : ℕ) ≤ 2 - 0
      decide
    · decide

/-- C9.  Finalization: WIGM first elects all pending candidates, then
elects remaining hopefuls only while the elected count is below the seat
count and defeats the rest, and Meek does the same without pending; in
both counters the final elected count is min of the seat count and the
number of non-withdrawn candidates, given the state invariants the loop
guarantees at termination (elected plus pending within the seats, the
termination predicate, and candidates defeated only while enough
hopefuls remained). -/
theorem claim_C9 :
    (∀ (nSeats : ℕ) (cands : List WCand),
      (welectedOf cands).length + (wpendingOf cands).length ≤ nSeats →
      ((whopefulOf cands).length + (welectedOf cands).length +
          (wpendingOf cands).length ≤ nSeats ∨
        nSeats ≤ (welectedOf cands).length + (wpendingOf cands).length) →
      ((wdefeatedOf cands).length = 0 ∨
        nSeats ≤ (welectedOf cands).length + (wpendingOf cands).length +
          (whopefulOf cands).length) →
      (welectedOf (wigmFinish nSeats cands)).length = min nSeats (wliveOf cands).length ∧
        (wpendingOf (wigmFinish nSeats cands)).length = 0) ∧
    (∀ (nSeats : ℕ) (cands : List MCand),
      (electedOf cands).length ≤ nSeats →
      ((hopefulOf cands).length + (electedOf cands).length ≤ nSeats ∨
        nSeats ≤ (electedOf cands).length) →
      ((defeatedOf cands).length = 0 ∨
        nSeats ≤ (electedOf cands).length + (hopefulOf cands).length) →
      (electedOf (meekFinish nSeats cands)).length = min nSeats (liveOf cands).length) := by
  constructor
  · intro nSeats cands hep hcomp hdef
    obtain ⟨hw1, hw2⟩ := wigmFinishWalk_counts nSeats
      (cands.map (fun c =>
        if c.status = WStatus.pending then { c with status := WStatus.elected } else c))
      ((welectedOf (cands.map (fun c =>
        if c.status = WStatus.pending then { c with status := WStatus.elected } else c))).length)
    obtain ⟨hp1, hp2, hp3⟩ := promote_counts cands
    have hpart := wlive_partition cands
    simp only [wigmFinish]
    rw [hw1, hw2, hp1, hp2, hp3]
    constructor
    · omega
    · rfl
  · intro nSeats cands hep hcomp hdef
    have hm := meekFinishWalk_counts nSeats cands ((electedOf cands).length)
    have hpart := mlive_partition cands
    simp only [meekFinish]
    rw [hm]
    omega

theorem claim_C9_witness :
    ((welectedOf (wigmFinish 2 [⟨1, 1, WStatus.pending, 5⟩, ⟨2, 2, WStatus.hopeful, 3⟩])).length =
        min 2 (wliveOf [⟨1, 1, WStatus.pending, 5⟩, ⟨2, 2, WStatus.hopeful, 3⟩]).length ∧
      (wpendingOf (wigmFinish 2 [⟨1, 1, WStatus.pending, 5⟩,
        ⟨2, 2, WStatus.hopeful, 3⟩])).length = 0) ∧
    (electedOf (meekFinish 1 [⟨1, 1, MStatus.hopeful, 3, 0⟩])).length =
      min 1 (liveOf [⟨1, 1, MStatus.hopeful, 3, 0⟩]).length :=
  ⟨claim_C9.1 2 [⟨1, 1, WStatus.pending, 5⟩, ⟨2, 2, WStatus.hopeful, 3⟩]
      (by decide) (by decide) (by decide),
   claim_C9.2 1 [⟨1, 1, MStatus.hopeful, 3, 0⟩] (by decide) (by decide) (by decide)⟩

/-- C10.  In the Meek/Warren counter, after any sequence of the counter
operations applied to the initialized candidates, every hopeful
candidate has keep factor exactly V1: the keep-factor update touches
only elected candidates, and the transitions away from hopeful (elect,
defeat) are the only ones that change what a hopeful holds. -/
theorem claim_C10 (s : ℤ) (profile : List (ℕ × ℕ × Bool)) (ops : List MeekOp) :
    ∀ c ∈ applyMeekOps s (meekInit s profile) ops, c.status = .hopeful → c.kf = s := by
  have main : ∀ (ops : List MeekOp) (cands : List MCand), hopefulKfOne s cands →
      hopefulKfOne s (applyMeekOps s cands ops) := by
    intro ops
    induction ops with
    | nil => exact fun cands h => h
    | cons op rest ih =>
      intro cands h
      exact ih (applyMeekOp s cands op) (hopefulKfOne_applyMeekOp s cands op h)
  exact main ops (meekInit s profile) (hopefulKfOne_meekInit s profile)

/-- C1.  In the Meek/Warren inner iteration, the termination conditions
of a pass are tested in exactly the priority order of the source: first
a hopeful elected this pass (status Elected), then surplus at most omega
with a non-strict comparison (status Omega), then surplus not strictly
decreasing (status Stable), then a non-empty defeatable batch (status
Batch), and otherwise every elected keep factor is updated to
div(mul(kf, quota, round=up), vote, round=up) and the iteration
repeats. -/
theorem claim_C1 (s : ℤ) (nSeats : ℕ) (omega lastsurplus seatsLeft : ℤ)
    (defeatBatch : Bool) (cands : List MCand) :
    (passAnyElected (passQuota s nSeats cands) cands = true →
      iteratePass s nSeats omega lastsurplus seatsLeft defeatBatch cands =
        .elected (passNewCands s nSeats cands) (passTotalSurplus s nSeats cands)) ∧
    (passAnyElected (passQuota s nSeats cands) cands = false →
      passTotalSurplus s nSeats cands ≤ omega →
      iteratePass s nSeats omega lastsurplus seatsLeft defeatBatch cands =
        .omegaHit (passNewCands s nSeats cands) (passTotalSurplus s nSeats cands)) ∧
    (passAnyElected (passQuota s nSeats cands) cands = false →
      omega < passTotalSurplus s nSeats cands →
      lastsurplus ≤ passTotalSurplus s nSeats cands →
      iteratePass s nSeats omega lastsurplus seatsLeft defeatBatch cands =
        .stable (passNewCands s nSeats cands) (passTotalSurplus s nSeats cands)) ∧
    (passAnyElected (passQuota s nSeats cands) cands = false →
      omega < passTotalSurplus s nSeats cands →
      passTotalSurplus s nSeats cands < lastsurplus →
      passBatch (passTotalSurplus s nSeats cands) seatsLeft defeatBatch
          (passNewCands s nSeats cands) ≠ [] →
      iteratePass s nSeats omega lastsurplus seatsLeft defeatBatch cands =
        .batchOut (passNewCands s nSeats cands)
          (passBatch (passTotalSurplus s nSeats cands) seatsLeft defeatBatch
            (passNewCands s nSeats cands))
          (passTotalSurplus s nSeats cands)) ∧
    (passAnyElected (passQuota s nSeats cands) cands = false →
      omega < passTotalSurplus s nSeats cands →
      passTotalSurplus s nSeats cands < lastsurplus →
      passBatch (passTotalSurplus s nSeats cands) seatsLeft defeatBatch
          (passNewCands s nSeats cands) = [] →
      iteratePass s nSeats omega lastsurplus seatsLeft defeatBatch cands =
        .again (updateKeepFactors s (passQuota s nSeats cands) (passNewCands s nSeats cands))
          (passTotalSurplus s nSeats cands)) := by
  unfold iteratePass
  refine ⟨fun h1 => ?_, fun h1 h2 => ?_, fun h1 h2 h3 => ?_,
    fun h1 h2 h3 h4 => ?_, fun h1 h2 h3 h4 => ?_⟩
  · simp [h1]
  · simp [h1, h2]
  · simp [h1, not_le.2 h2, h3]
  · simp [h1, not_le.2 h2, not_le.2 h3, h4]
  · simp [h1, not_le.2 h2, not_le.2 h3, h4]

theorem claim_C1_witness :
    iteratePass 10 1 10 100 1 true
        [⟨1, 1, MStatus.elected, 36, 10⟩, ⟨2, 2, MStatus.hopeful, 20, 10⟩] =
      PassResult.omegaHit
        [⟨1, 1, MStatus.elected, 36, 10⟩, ⟨2, 2, MStatus.hopeful, 20, 10⟩] 7 := by
  have h := (claim_C1 10 1 10 100 1 true
    [⟨1, 1, MStatus.elected, 36, 10⟩, ⟨2, 2, MStatus.hopeful, 20, 10⟩]).2.1
    (by decide) (by decide)
  exact h.trans (by decide)

theorem claim_C10_witness :
    (⟨1, 1, MStatus.hopeful, 0, 7⟩ : MCand) ∈
        applyMeekOps 7 (meekInit 7 [(1, 1, false), (2, 2, true)]) [.update 3] ∧
      (⟨1, 1, MStatus.hopeful, 0, 7⟩ : MCand).kf = 7 :=
  ⟨by decide, claim_C10 7 [(1, 1, false), (2, 2, true)] [.update 3]
    ⟨1, 1, MStatus.hopeful, 0, 7⟩ (by decide) rfl⟩

end Droop
